import Mathlib

/-!
Verification development for the `chonky-disk` disk-usage scanner
(`src/src-tauri/src/scanner.rs` and `src/src-tauri/src/main.rs`).

The Rust code is shallowly embedded: pure fragments become Lean functions,
filesystem syscall results and wall-clock / cancellation-token / publish
results become explicit oracle inputs, and the directory tree visible to the
traversal becomes an inductive structure carrying exactly the observations
the code makes (entry iteration errors, file-type errors, symlink flags,
metadata results).
-/

/-- `type HeapEntry = (u64, String)` from scanner.rs.  File sizes are `u64`
values; they are modelled as `Nat` (every concrete size is `< 2^64`; no
arithmetic in the tracker can overflow since sizes are only compared). -/
abbrev HeapEntry := Nat × String

/-- `pub const DEFAULT_TOP_N: usize = 50` from scanner.rs. -/
def DEFAULT_TOP_N : Nat := 50

/-- `FileEntry { path, size }` from scanner.rs. -/
structure FileEntry where
  path : String
  size : Nat
deriving Repr, DecidableEq

/-- `ProgressPayload` from scanner.rs (`scanId`, `scannedFiles`,
`scannedBytes`, `currentPath`, `topFiles`). -/
structure ProgressPayload where
  scan_id : Nat
  scanned_files : Nat
  scanned_bytes : Nat
  current_path : String
  top_files : List FileEntry
deriving Repr, DecidableEq

/-- The derived `Ord` on Rust's `(u64, String)`: lexicographic, sizes first,
then byte-wise string order.  `entryLeB a b` means `a <= b` in that order. -/
def entryLeB (a b : HeapEntry) : Bool :=
  decide (a.1 < b.1) || (decide (a.1 = b.1) && decide (a.2 ≤ b.2))

/-- The minimum of `e :: es` in the `(u64, String)` order: the element a
`BinaryHeap<Reverse<HeapEntry>>` yields on `pop()`. -/
def minEntry (e : HeapEntry) (es : List HeapEntry) : HeapEntry :=
  match es with
  | [] => e
  | x :: xs => minEntry (if entryLeB x e then x else e) xs

/-- Remove the first occurrence of `m` from `l` (the effect of `pop()` on the
heap contents, once the popped element `m` is known). -/
def removeFirst (l : List HeapEntry) (m : HeapEntry) : List HeapEntry :=
  match l with
  | [] => []
  | x :: xs => if x = m then xs else x :: removeFirst xs m

/-- `push_top` from scanner.rs: push the entry onto the min-heap and, if the
heap now holds more than `limit` elements, pop the minimum.  The heap is
modelled by its contents as a list (`BinaryHeap` internal order is
unspecified); `pop()` removes one minimal element. -/
def push_top (heap : List HeapEntry) (entry : HeapEntry) (limit : Nat) : List HeapEntry :=
  let h := entry :: heap
  if limit < h.length then removeFirst h (minEntry entry heap) else h

/-- Descending-by-size order used by
`top_files.sort_by(|a, b| b.size.cmp(&a.size))` in `emit_progress`. -/
def sizeGe (a b : FileEntry) : Prop := b.size ≤ a.size

instance : DecidableRel sizeGe := fun a b => Nat.decLe b.size a.size

instance : IsTotal FileEntry sizeGe := ⟨fun a b => Nat.le_total b.size a.size⟩

instance : IsTrans FileEntry sizeGe := ⟨fun _ _ _ h h' => Nat.le_trans h' h⟩

/-- The rendering step of `emit_progress`: map heap entries to `FileEntry`
and sort descending by size (a stable sort, as Rust's `sort_by`). -/
def renderTop (heap : List HeapEntry) : List FileEntry :=
  List.insertionSort sizeGe (heap.map fun e => ⟨e.2, e.1⟩)

/-- Folding a whole insertion sequence through `push_top`, starting from the
empty heap (as `scan_directory` does). -/
def insertAll (limit : Nat) (xs : List HeapEntry) : List HeapEntry :=
  xs.foldl (fun h e => push_top h e limit) []

/-- The Top-N tracker invariant: the heap holds `min limit n` of the `n`
entries seen so far, every entry seen is either in the heap or dropped, and
every dropped entry has size at most that of every retained entry. -/
def TopInv (limit : Nat) (seen heap : List HeapEntry) : Prop :=
  heap.length = min limit seen.length ∧
  ∃ dropped : List HeapEntry,
    List.Perm (heap ++ dropped) seen ∧
    ∀ d ∈ dropped, ∀ r ∈ heap, d.1 ≤ r.1

theorem entryLeB_refl (a : HeapEntry) : entryLeB a a = true := by
  simp [entryLeB]

theorem entryLeB_total (a b : HeapEntry) : entryLeB a b = true ∨ entryLeB b a = true := by
  simp only [entryLeB, Bool.or_eq_true, Bool.and_eq_true, decide_eq_true_eq]
  rcases Nat.lt_trichotomy a.1 b.1 with h | h | h
  · exact Or.inl (Or.inl h)
  · rcases le_total a.2 b.2 with h2 | h2
    · exact Or.inl (Or.inr ⟨h, h2⟩)
    · exact Or.inr (Or.inr ⟨h.symm, h2⟩)
  · exact Or.inr (Or.inl h)

theorem entryLeB_trans {a b c : HeapEntry}
    (h1 : entryLeB a b = true) (h2 : entryLeB b c = true) : entryLeB a c = true := by
  simp only [entryLeB, Bool.or_eq_true, Bool.and_eq_true, decide_eq_true_eq] at *
  rcases h1 with h1 | ⟨h1, h1'⟩ <;> rcases h2 with h2 | ⟨h2, h2'⟩
  · exact Or.inl (h1.trans h2)
  · exact Or.inl (h2 ▸ h1)
  · exact Or.inl (h1 ▸ h2)
  · exact Or.inr ⟨h1.trans h2, h1'.trans h2'⟩

theorem entryLeB_size {a b : HeapEntry} (h : entryLeB a b = true) : a.1 ≤ b.1 := by
  simp only [entryLeB, Bool.or_eq_true, Bool.and_eq_true, decide_eq_true_eq] at h
  rcases h with h | ⟨h, _⟩
  · exact Nat.le_of_lt h
  · exact Nat.le_of_eq h

theorem minEntry_mem (e : HeapEntry) (es : List HeapEntry) :
    minEntry e es ∈ e :: es := by
  induction es generalizing e with
  | nil => simp [minEntry]
  | cons x xs ih =>
    simp only [minEntry]
    by_cases hc : entryLeB x e = true
    · simp only [if_pos hc]
      rcases List.mem_cons.mp (ih x) with h | h
      · simp [h]
      · simp [h]
    · simp only [if_neg hc]
      rcases List.mem_cons.mp (ih e) with h | h
      · simp [h]
      · simp [h]

theorem minEntry_le (e : HeapEntry) (es : List HeapEntry) :
    ∀ x ∈ e :: es, entryLeB (minEntry e es) x = true := by
  induction es generalizing e with
  | nil =>
    intro x hx
    simp at hx
    simp [minEntry, hx, entryLeB_refl]
  | cons y ys ih =>
    intro x hx
    have hmin2 : entryLeB (if entryLeB y e then y else e) e = true ∧
        entryLeB (if entryLeB y e then y else e) y = true := by
      by_cases hc : entryLeB y e = true
      · simp [hc, entryLeB_refl]
      · rcases entryLeB_total y e with h | h
        · exact absurd h hc
        · simp [hc, h, entryLeB_refl]
    rcases List.mem_cons.mp hx with rfl | hx'
    · exact entryLeB_trans (ih _ _ (List.mem_cons_self _ _)) hmin2.1
    · rcases List.mem_cons.mp hx' with rfl | hx''
      · exact entryLeB_trans (ih _ _ (List.mem_cons_self _ _)) hmin2.2
      · exact ih _ _ (List.mem_cons_of_mem _ hx'')

theorem removeFirst_perm {m : HeapEntry} {l : List HeapEntry} (h : m ∈ l) :
    List.Perm l (m :: removeFirst l m) := by
  induction l with
  | nil => simp at h
  | cons x xs ih =>
    by_cases hx : x = m
    · subst hx
      simp [removeFirst]
    · have hm : m ∈ xs := by
        rcases List.mem_cons.mp h with h' | h'
        · exact absurd h'.symm hx
        · exact h'
      have := (ih hm).cons x
      simp only [removeFirst, if_neg hx]
      exact this.trans (List.Perm.swap m x (removeFirst xs m))

theorem removeFirst_subset {m x : HeapEntry} {l : List HeapEntry}
    (h : x ∈ removeFirst l m) : x ∈ l := by
  induction l with
  | nil => simp [removeFirst] at h
  | cons y ys ih =>
    by_cases hy : y = m
    · subst hy
      simp [removeFirst] at h
      simp [h]
    · simp only [removeFirst, if_neg hy] at h
      rcases List.mem_cons.mp h with h' | h'
      · simp [h']
      · simp [ih h']

theorem cons_perm_append_singleton (e : HeapEntry) (l : List HeapEntry) :
    List.Perm (e :: l) (l ++ [e]) := by
  have h : List.Perm (l ++ e :: []) (e :: (l ++ [])) := List.perm_middle
  simpa using h.symm

theorem push_top_inv {limit : Nat} {seen heap : List HeapEntry}
    (h : TopInv limit seen heap) (e : HeapEntry) :
    TopInv limit (seen ++ [e]) (push_top heap e limit) := by
  obtain ⟨hlen, dropped, hsum, hdom⟩ := h
  have hselen : (seen ++ [e]).length = seen.length + 1 := by simp
  by_cases hfull : limit < heap.length + 1
  · -- eviction case: the heap already holds `limit` elements
    have hlim : heap.length = limit := by omega
    have hseen : limit ≤ seen.length := by
      have := hlen; rw [hlim] at this; omega
    have hmem : minEntry e heap ∈ e :: heap := minEntry_mem e heap
    have hperm : List.Perm (e :: heap) (minEntry e heap :: removeFirst (e :: heap) (minEntry e heap)) :=
      removeFirst_perm hmem
    have hpt : push_top heap e limit = removeFirst (e :: heap) (minEntry e heap) := by
      simp only [push_top, List.length_cons]
      rw [if_pos hfull]
    have hptlen : (push_top heap e limit).length = heap.length := by
      rw [hpt]
      have := hperm.length_eq
      simp at this
      omega
    refine ⟨?_, minEntry e heap :: dropped, ?_, ?_⟩
    · rw [hptlen, hlim, hselen]
      omega
    · rw [hpt]
      have s1 : List.Perm (removeFirst (e :: heap) (minEntry e heap) ++ minEntry e heap :: dropped)
          (minEntry e heap :: (removeFirst (e :: heap) (minEntry e heap) ++ dropped)) :=
        List.perm_middle
      have s2 : List.Perm (minEntry e heap :: (removeFirst (e :: heap) (minEntry e heap) ++ dropped))
          ((e :: heap) ++ dropped) := by
        have := (hperm.symm).append_right dropped
        simpa using this
      have s3 : List.Perm ((e :: heap) ++ dropped) (e :: seen) := by
        simpa using hsum.cons e
      exact ((s1.trans s2).trans s3).trans (cons_perm_append_singleton e seen)
    · intro d hd r hr
      rw [hpt] at hr
      have hrmem : r ∈ e :: heap := removeFirst_subset hr
      rcases List.mem_cons.mp hd with rfl | hd'
      · -- d is the freshly evicted minimum
        exact entryLeB_size (minEntry_le e heap r hrmem)
      · -- d was dropped earlier
        rcases List.mem_cons.mp hrmem with heq | hrh
        · -- r = e : chain through the minimum, which sits in the old heap
          subst heq
          by_cases hme : minEntry r heap = r
          · -- the popped minimum is the freshly pushed entry itself, so the
            -- remaining heap is the old heap and d is bounded directly
            rw [hme] at hr
            simp [removeFirst] at hr
            exact hdom d hd' r hr
          · have hmh : minEntry r heap ∈ heap := by
              rcases List.mem_cons.mp hmem with h | h
              · exact absurd h hme
              · exact h
            have h1 : d.1 ≤ (minEntry r heap).1 := hdom d hd' (minEntry r heap) hmh
            have h2 : (minEntry r heap).1 ≤ r.1 := entryLeB_size (minEntry_le r heap r (by simp))
            exact h1.trans h2
        · exact hdom d hd' r hrh
  · -- no eviction: the heap grows by one
    have hlt : heap.length < limit := by omega
    have hseen : seen.length = heap.length := by
      have hp := hsum.length_eq
      simp at hp
      omega
    have hdropped : dropped = [] := by
      have hp := hsum.length_eq
      simp at hp
      have : dropped.length = 0 := by omega
      exact List.length_eq_zero.mp this
    subst hdropped
    have hpt : push_top heap e limit = e :: heap := by
      simp only [push_top, List.length_cons]
      rw [if_neg hfull]
    refine ⟨?_, [], ?_, ?_⟩
    · rw [hpt, hselen]
      simp
      omega
    · rw [hpt]
      simp only [List.append_nil] at hsum ⊢
      exact (hsum.cons e).trans (cons_perm_append_singleton e seen)
    · intro d hd
      simp at hd

theorem insertAll_inv (limit : Nat) (xs : List HeapEntry) :
    TopInv limit xs (insertAll limit xs) := by
  have base : TopInv limit [] [] := by
    refine ⟨by simp, [], by simp, by intro d hd; simp at hd⟩
  have step : ∀ (ys : List HeapEntry) (seen heap : List HeapEntry),
      TopInv limit seen heap →
      TopInv limit (seen ++ ys) (ys.foldl (fun h e => push_top h e limit) heap) := by
    intro ys
    induction ys with
    | nil => intro seen heap h; simpa using h
    | cons y ys ih =>
      intro seen heap h
      have h' := push_top_inv h y
      have := ih (seen ++ [y]) (push_top heap y limit) h'
      simpa using this
  simpa using step xs [] [] base

/-!  Directory traversal (`scan_directory`, scanner.rs lines 38-165).

The portion of the filesystem the traversal observes is an inductive tree:
each directory entry records exactly what the corresponding syscalls return.
Entries whose file type is a symbolic link are recorded as `symlinkE` and
carry no subtree, since the code skips them before calling `entry.path()`
(scanner.rs line 112-114) and `read_dir` is never invoked through them.
Wall-clock throttling (`last_emit.elapsed() >= EMIT_INTERVAL`), cancellation
token loads (`cancel.load`) and publish results (`app.emit_to`) are oracles
`Nat → Bool`, consumed in program order via counters in the state. -/

/-- A directory listing as observed by the traversal loop: the sequence of
items `fs::read_dir`'s iterator yields, each recording exactly what the
corresponding syscalls return (scanner.rs lines 96-150):
* `errEntry rest`      — the iterator yields `Err(_)` (lines 102-105);
* `errFileType rest`   — `entry.file_type()` fails (lines 107-110);
* `symlinkE rest`      — the file type is a symbolic link (lines 112-114);
  skipped before `entry.path()` is read, so it carries no path and no
  subtree (`read_dir` is never invoked through a symlink entry);
* `otherE p rest`      — neither symlink, directory nor regular file
  (lines 125-127);
* `dirOk p sub rest`   — a directory whose later `read_dir` yields `sub`;
* `dirErr p rest`      — a directory whose later `read_dir` fails
  (lines 91-94);
* `fileE p m rest`     — a regular file; `m` is the `entry.metadata()`
  outcome (`some size` on success, `none` on failure, lines 129-134). -/
inductive RListing where
  | nil : RListing
  | errEntry : RListing → RListing
  | errFileType : RListing → RListing
  | symlinkE : RListing → RListing
  | otherE : String → RListing → RListing
  | dirOk : String → RListing → RListing → RListing
  | dirErr : String → RListing → RListing
  | fileE : String → Option Nat → RListing → RListing
deriving DecidableEq

/-- Total number of entries in a listing, subtrees included (termination
measure for the traversal). -/
def RListing.lsize : RListing → Nat
  | .nil => 0
  | .errEntry rest => 1 + rest.lsize
  | .errFileType rest => 1 + rest.lsize
  | .symlinkE rest => 1 + rest.lsize
  | .otherE _ rest => 1 + rest.lsize
  | .dirOk _ sub rest => 1 + sub.lsize + rest.lsize
  | .dirErr _ rest => 1 + rest.lsize
  | .fileE _ _ rest => 1 + rest.lsize

/-- The mutable state of `scan_directory`: the pending-directory queue
(`dirs`), the tracker heap, the running counters and `current_path`, the
oracle positions (`clockIdx` for throttle checks, `pollIdx` for cancellation
loads, `pubIdx` for publish attempts), the emitted events in order, and the
`cancelled` flag. -/
structure ScanSt where
  dirs : List (String × Option RListing)
  heap : List HeapEntry
  scanned_files : Nat
  scanned_bytes : Nat
  current_path : String
  clockIdx : Nat
  pollIdx : Nat
  pubIdx : Nat
  events : List (String × ProgressPayload)
  cancelled : Bool
deriving DecidableEq

/-- `emit_progress` from scanner.rs (lines 174-205): render the heap sorted
descending by size, build the payload, and attempt `app.emit_to("main", ...)`
whose result is discarded (`let _ = ...`). -/
def emit_progress (pub : Nat → Bool) (scanId : Nat) (event_name : String) (st : ScanSt) : ScanSt :=
  let payload : ProgressPayload :=
    { scan_id := scanId,
      scanned_files := st.scanned_files,
      scanned_bytes := st.scanned_bytes,
      current_path := st.current_path,
      top_files := renderTop st.heap }
  let _ := pub st.pubIdx
  { st with events := st.events ++ [(event_name, payload)], pubIdx := st.pubIdx + 1 }

/-- The inner `for entry in entries` loop of `scan_directory` (lines 96-151).
Before each entry the cancellation token is polled (line 97) and on a `true`
read the loop breaks with `cancelled = true`; error, symlink and non-file
entries are skipped; directories are pushed onto the back of the queue;
regular files update `current_path`, the counters and the tracker, and may
emit a throttled progress event (lines 139-150). -/
def foldEntries (cancel clock pub : Nat → Bool) (topN scanId : Nat) :
    RListing → ScanSt → ScanSt
  | .nil, st => st
  | .errEntry rest, st =>
    if cancel st.pollIdx then { st with pollIdx := st.pollIdx + 1, cancelled := true }
    else foldEntries cancel clock pub topN scanId rest { st with pollIdx := st.pollIdx + 1 }
  | .errFileType rest, st =>
    if cancel st.pollIdx then { st with pollIdx := st.pollIdx + 1, cancelled := true }
    else foldEntries cancel clock pub topN scanId rest { st with pollIdx := st.pollIdx + 1 }
  | .symlinkE rest, st =>
    if cancel st.pollIdx then { st with pollIdx := st.pollIdx + 1, cancelled := true }
    else foldEntries cancel clock pub topN scanId rest { st with pollIdx := st.pollIdx + 1 }
  | .otherE p rest, st =>
    if cancel st.pollIdx then { st with pollIdx := st.pollIdx + 1, cancelled := true }
    else foldEntries cancel clock pub topN scanId rest
      { st with pollIdx := st.pollIdx + 1, current_path := p }
  | .dirOk p sub rest, st =>
    if cancel st.pollIdx then { st with pollIdx := st.pollIdx + 1, cancelled := true }
    else foldEntries cancel clock pub topN scanId rest
      { st with
        pollIdx := st.pollIdx + 1, current_path := p,
        dirs := st.dirs ++ [(p, some sub)] }
  | .dirErr p rest, st =>
    if cancel st.pollIdx then { st with pollIdx := st.pollIdx + 1, cancelled := true }
    else foldEntries cancel clock pub topN scanId rest
      { st with
        pollIdx := st.pollIdx + 1, current_path := p,
        dirs := st.dirs ++ [(p, none)] }
  | .fileE p meta rest, st =>
    if cancel st.pollIdx then { st with pollIdx := st.pollIdx + 1, cancelled := true }
    else
      match meta with
      | none => foldEntries cancel clock pub topN scanId rest
          { st with pollIdx := st.pollIdx + 1, current_path := p }
      | some size =>
        let st2 := { st with
          pollIdx := st.pollIdx + 1,
          current_path := p,
          scanned_files := st.scanned_files + 1,
          scanned_bytes := st.scanned_bytes + size,
          heap := push_top st.heap (size, p) topN }
        let st3 := if clock st2.clockIdx then emit_progress pub scanId "scan_progress" st2 else st2
        foldEntries cancel clock pub topN scanId rest { st3 with clockIdx := st3.clockIdx + 1 }

/-- Cost of a queued directory's listing. -/
def qcost : Option RListing → Nat
  | none => 0
  | some l => l.lsize

/-- Termination measure of the outer loop: total size of the queue. -/
def qsize : List (String × Option RListing) → Nat
  | [] => 0
  | (_, l?) :: rest => 1 + qcost l? + qsize rest

theorem qsize_append (a b : List (String × Option RListing)) :
    qsize (a ++ b) = qsize a + qsize b := by
  induction a with
  | nil => simp [qsize]
  | cons x xs ih =>
    obtain ⟨p, l?⟩ := x
    simp [qsize, ih]
    omega

theorem foldEntries_qsize (cancel clock pub : Nat → Bool) (topN scanId : Nat)
    (l : RListing) (st : ScanSt) :
    qsize (foldEntries cancel clock pub topN scanId l st).dirs ≤ qsize st.dirs + l.lsize := by
  induction l generalizing st with
  | nil => simp [foldEntries]
  | errEntry rest ih =>
    simp only [foldEntries]
    by_cases hc : cancel st.pollIdx
    · simp [hc, RListing.lsize]
    · simp only [hc, if_false]
      have := ih { st with pollIdx := st.pollIdx + 1 }
      simp at this ⊢
      simp [RListing.lsize]
      omega
  | errFileType rest ih =>
    simp only [foldEntries]
    by_cases hc : cancel st.pollIdx
    · simp [hc, RListing.lsize]
    · simp only [hc, if_false]
      have := ih { st with pollIdx := st.pollIdx + 1 }
      simp at this ⊢
      simp [RListing.lsize]
      omega
  | symlinkE rest ih =>
    simp only [foldEntries]
    by_cases hc : cancel st.pollIdx
    · simp [hc, RListing.lsize]
    · simp only [hc, if_false]
      have := ih { st with pollIdx := st.pollIdx + 1 }
      simp at this ⊢
      simp [RListing.lsize]
      omega
  | otherE p rest ih =>
    simp only [foldEntries]
    by_cases hc : cancel st.pollIdx
    · simp [hc, RListing.lsize]
    · simp only [hc, if_false]
      have := ih { st with pollIdx := st.pollIdx + 1, current_path := p }
      simp at this ⊢
      simp [RListing.lsize]
      omega
  | dirOk p sub rest ihsub ih =>
    simp only [foldEntries]
    by_cases hc : cancel st.pollIdx
    · simp [hc, RListing.lsize]
    · simp only [hc, if_false]
      have := ih { st with
        pollIdx := st.pollIdx + 1, current_path := p,
        dirs := st.dirs ++ [(p, some sub)] }

      simp [qsize_append, qsize, qcost] at this ⊢
      simp [RListing.lsize]
      omega
  | dirErr p rest ih =>
    simp only [foldEntries]
    by_cases hc : cancel st.pollIdx
    · simp [hc, RListing.lsize]
    · simp only [hc, if_false]
      have := ih { st with
        pollIdx := st.pollIdx + 1, current_path := p,
        dirs := st.dirs ++ [(p, none)] }
      simp [qsize_append, qsize, qcost] at this ⊢
      simp [RListing.lsize]
      omega
  | fileE p meta rest ih =>
    simp only [foldEntries]
    by_cases hc : cancel st.pollIdx
    · simp [hc, RListing.lsize]
    · simp only [hc, if_false]
      cases meta with
      | none =>
        have := ih { st with pollIdx := st.pollIdx + 1, current_path := p }
        simp at this ⊢
        simp [RListing.lsize]
        omega
      | some size =>
        by_cases hk : clock st.clockIdx
        · have := ih { (emit_progress pub scanId "scan_progress"
            { st with
              pollIdx := st.pollIdx + 1,
              current_path := p,
              scanned_files := st.scanned_files + 1,
              scanned_bytes := st.scanned_bytes + size,
              heap := push_top st.heap (size, p) topN }) with
            clockIdx := st.clockIdx + 1 }
          simp [hk, emit_progress] at this ⊢
          simp [RListing.lsize]
          omega
        · have := ih { st with
            pollIdx := st.pollIdx + 1,
            current_path := p,
            scanned_files := st.scanned_files + 1,
            scanned_bytes := st.scanned_bytes + size,
            heap := push_top st.heap (size, p) topN,
            clockIdx := st.clockIdx + 1 }
          simp [hk, emit_progress] at this ⊢
          simp [RListing.lsize]
          omega

/-- The outer `while let Some(dir) = dirs.pop_front()` loop of
`scan_directory` (lines 85-152).  A directory is popped, the token is polled
(line 86) — a `true` read breaks the loop with `cancelled = true` — an
unreadable directory is skipped (lines 91-94), otherwise its entries are
processed and the loop continues. -/
def scanLoop (cancel clock pub : Nat → Bool) (topN scanId : Nat) (st : ScanSt) : ScanSt :=
  match hq : st.dirs with
  | [] => st
  | (_, l?) :: rest =>
    if cancel st.pollIdx then
      { st with dirs := rest, pollIdx := st.pollIdx + 1, cancelled := true }
    else
      let st1 := { st with dirs := rest, pollIdx := st.pollIdx + 1 }
      match l? with
      | none => scanLoop cancel clock pub topN scanId st1
      | some l =>
        scanLoop cancel clock pub topN scanId (foldEntries cancel clock pub topN scanId l st1)
termination_by qsize st.dirs
decreasing_by
  all_goals simp [hq, qsize, qcost]
  all_goals try omega
  all_goals
    (have hb := foldEntries_qsize cancel clock pub topN scanId l
        { st with dirs := rest, pollIdx := st.pollIdx + 1 }
     simp only [qsize, qcost] at hb
     omega)

/-- The result of `fs::metadata(&root)` at the top of `scan_directory`
(lines 53-81).  `fs::metadata` follows symbolic links (Rust std), so for a
root path that is a symlink this reports the link's target. -/
inductive RootMeta where
  | metaErr : RootMeta
  | fileRoot : Nat → RootMeta
  | dirRoot : RootMeta
deriving DecidableEq

/-- A scan's input world: the root path, whether that path is itself a
symbolic link (never queried by the code — `fs::metadata` and `read_dir`
both follow links), the root `fs::metadata` outcome, and the listing
`read_dir(root)` would yield (`none` if it fails). -/
structure ScanInput where
  root : String
  rootIsSymlink : Bool
  rootMeta : RootMeta
  rootListing : Option RListing
deriving DecidableEq

/-- The initial state of `scan_directory` (lines 45-51). -/
def initSt : ScanSt :=
  { dirs := [], heap := [], scanned_files := 0, scanned_bytes := 0,
    current_path := "", clockIdx := 0, pollIdx := 0, pubIdx := 0,
    events := [], cancelled := false }

/-- `scan_directory` from scanner.rs (lines 38-165).  If the root's metadata
reports a regular file, the singleton short-circuit runs (lines 53-81):
count it, insert it, emit one progress and one completion event, return
`false`.  Otherwise the root is enqueued and the loop runs; one final
completion event is emitted unconditionally (lines 154-162).  The Rust
return value `cancelled` is the `cancelled` field of the result. -/
def scan_directory (inp : ScanInput) (cancel clock pub : Nat → Bool)
    (topN scanId : Nat) : ScanSt :=
  match inp.rootMeta with
  | .fileRoot size =>
    let st := { initSt with
      scanned_files := 1, scanned_bytes := size,
      current_path := inp.root, heap := push_top [] (size, inp.root) topN }
    let st := emit_progress pub scanId "scan_progress" st
    emit_progress pub scanId "scan_complete" st
  | _ =>
    let st := { initSt with dirs := [(inp.root, inp.rootListing)] }
    let st := scanLoop cancel clock pub topN scanId st
    emit_progress pub scanId "scan_complete" st

/-!  Scan state coordinator (`main.rs` lines 23-66, 210-282) and the live
change watcher (`main.rs` lines 81-145). -/

/-- 2^64, the modulus of Rust `u64` `wrapping_add`. -/
def U64MOD : Nat := 2 ^ 64

/-- `ScanState` from main.rs (lines 23-28; `Default` at lines 57-66); the
singleton mutex-guarded control state.  `cancel_flag` is the value of the
currently installed `Arc<AtomicBool>` token. -/
structure ScanState where
  next_id : Nat
  active_id : Option Nat
  cancel_flag : Bool
  watch_generation : Nat
deriving DecidableEq

/-- `ScanState::default()` (main.rs lines 57-66). -/
def initScanState : ScanState :=
  { next_id := 1, active_id := none, cancel_flag := false, watch_generation := 0 }

/-- `watch_generation` from main.rs (lines 68-70). -/
def watch_generation (st : ScanState) : Nat := st.watch_generation

/-- `should_watch` from main.rs (lines 72-79): compare the live generation
with the captured one; a poisoned lock is treated as "still fresh"
(`Err(_) => true`). -/
def should_watch (poisoned : Bool) (liveGen generation : Nat) : Bool :=
  if poisoned then true else liveGen == generation

/-- Outcome of a `start_scan` call: the command's return value, the control
state afterwards, whether the background traversal task was spawned, and the
watch generation captured for the later watcher gate (main.rs lines
241-248). -/
structure StartScanResult where
  ret : Except String Nat
  state : ScanState
  spawned : Bool
  capturedGen : Nat

/-- `start_scan` from main.rs (lines 210-267), up to the spawn of the
background task.  `rootExists` is `root.exists()`; `poisoned` is whether the
control-state mutex is poisoned.  The existence check precedes the lock
(lines 216-219).  On success: the old token is set if a scan is active and
then replaced by a fresh (false) token, a fresh id is allocated with
`wrapping_add`, the watch generation is bumped with `wrapping_add`, and the
new id becomes active. -/
def start_scan (rootExists poisoned : Bool) (st : ScanState) : StartScanResult :=
  if !rootExists then
    { ret := .error "Path does not exist", state := st, spawned := false, capturedGen := 0 }
  else if poisoned then
    { ret := .error "Scan state lock poisoned", state := st, spawned := false, capturedGen := 0 }
  else
    let scanId := st.next_id
    let st1 : ScanState :=
      { next_id := (st.next_id + 1) % U64MOD,
        active_id := some scanId,
        cancel_flag := false,
        watch_generation := (st.watch_generation + 1) % U64MOD }
    { ret := .ok scanId, state := st1, spawned := true, capturedGen := watch_generation st1 }

/-- Outcome of a `cancel_scan` call. -/
structure CancelScanResult where
  ret : Except String Bool
  state : ScanState

/-- `cancel_scan` from main.rs (lines 269-282): if the id matches the active
one, set the token and clear `active_id`, returning `Ok(true)`; otherwise
`Ok(false)`.  A poisoned lock fails the call. -/
def cancel_scan (scanId : Nat) (poisoned : Bool) (st : ScanState) : CancelScanResult :=
  if poisoned then { ret := .error "Scan state lock poisoned", state := st }
  else if st.active_id = some scanId then
    { ret := .ok true, state := { st with cancel_flag := true, active_id := none } }
  else
    { ret := .ok false, state := st }

/-- Outcome of the scan task's epilogue. -/
structure TaskEpilogue where
  state : ScanState
  watcherSpawned : Bool
deriving DecidableEq

/-- The tail of the spawned scan task (main.rs lines 250-264): after
`scan_directory` returns, clear `active_id` if it still equals this scan's
id (skipped silently on a poisoned lock), then spawn the watcher iff the
traversal was not cancelled and `should_watch` accepts the captured
generation. -/
def afterScanTask (cancelled : Bool) (scanId : Nat) (poisoned : Bool)
    (st : ScanState) (capturedGen : Nat) : TaskEpilogue :=
  let st1 :=
    if poisoned then st
    else if st.active_id = some scanId then { st with active_id := none } else st
  { state := st1,
    watcherSpawned := !cancelled && should_watch poisoned (watch_generation st1) capturedGen }

/-- Result of `fs::symlink_metadata(path)` as used by `path_is_file`
(main.rs lines 81-86): on success, whether the metadata reports a regular
file and whether the file type is a symlink. -/
inductive SymlinkMeta where
  | err : SymlinkMeta
  | ok : Bool → Bool → SymlinkMeta
deriving DecidableEq

/-- `path_is_file` from main.rs (lines 81-86). -/
def path_is_file : SymlinkMeta → Bool
  | .err => false
  | .ok isFile isSymlink => isFile && !isSymlink

/-- The snapshot of one notification path, as observed by the syscalls the
watcher makes: `path.exists()` (follows symlinks), the `symlink_metadata`
outcome, and the `fs::metadata(...).ok().map(|m| m.len())` outcome. -/
structure PathInfo where
  path : String
  pathExists : Bool
  slMeta : SymlinkMeta
  metaLen : Option Nat
deriving DecidableEq

/-- The `notify` event kinds distinguished by the match at main.rs lines
112-117; everything besides create/modify/remove is `otherKind`. -/
inductive EvKind where
  | create : EvKind
  | modify : EvKind
  | remove : EvKind
  | otherKind : EvKind
deriving DecidableEq

/-- One item received from the watcher's channel (`Result<Event, _>`). -/
inductive RawResult where
  | err : RawResult
  | ok : EvKind → List PathInfo → RawResult
deriving DecidableEq

/-- `FsChangePayload` from main.rs (lines 48-55). -/
structure FsChangePayload where
  scan_id : Nat
  path : String
  kind : String
  size : Option Nat
deriving DecidableEq

/-- The kind match at main.rs lines 112-117. -/
def kindStr : EvKind → Option String
  | .create => some "create"
  | .modify => some "modify"
  | .remove => some "remove"
  | .otherKind => none

/-- The per-path classification of the watcher (main.rs lines 119-141):
a remove-classified kind, or a path that no longer exists, emits
`remove` with no size; an existing path that is a regular non-symlinked file
emits the kind with the current `fs::metadata` length; anything else (a
directory, a symlink) emits nothing. -/
def processPath (scanId : Nat) (kind : String) (p : PathInfo) : Option FsChangePayload :=
  if kind == "remove" then
    some { scan_id := scanId, path := p.path, kind := "remove", size := none }
  else if !p.pathExists then
    some { scan_id := scanId, path := p.path, kind := "remove", size := none }
  else if path_is_file p.slMeta then
    some { scan_id := scanId, path := p.path, kind := kind, size := p.metaLen }
  else
    none

/-- Processing of one received channel item (main.rs lines 107-142):
an `Err` is skipped; an event of an undistinguished kind is skipped; else
each associated path is classified and at most one payload per path is
emitted. -/
def processMsg (scanId : Nat) (m : RawResult) : List FsChangePayload :=
  match m with
  | .err => []
  | .ok k paths =>
    match kindStr k with
    | none => []
    | some ks => paths.filterMap (processPath scanId ks)

/-- The watcher's receive loop (main.rs lines 102-143).  `msgs` is the full
sequence the channel yields before it closes; `live i` and `pois i` are the
coordinator's generation and lock-poison status at the `i`-th `should_watch`
check; the loop breaks at the first stale check, and otherwise processes
every message (the `emit_to` results being discarded). -/
def watcherLoop (pub : Nat → Bool) (live : Nat → Nat) (pois : Nat → Bool)
    (capturedGen scanId : Nat) : List RawResult → Nat → List FsChangePayload
  | [], _ => []
  | m :: rest, idx =>
    if should_watch (pois idx) (live idx) capturedGen then
      let out := processMsg scanId m
      let _ := pub idx
      out ++ watcherLoop pub live pois capturedGen scanId rest (idx + 1)
    else []

/-!  Helper lemmas about the traversal's event trace. -/

/-- The all-false cancellation oracle: a token that is never set. -/
def neverCancel : Nat → Bool := fun _ => false

theorem renderTop_sorted (heap : List HeapEntry) :
    List.Sorted sizeGe (renderTop heap) :=
  List.sorted_insertionSort sizeGe _

/-- Every event in `t` is a progress event carrying the given scan id and a
top-files list sorted descending by size. -/
def progressOnly (scanId : Nat) (t : List (String × ProgressPayload)) : Prop :=
  ∀ e ∈ t, e.1 = "scan_progress" ∧ List.Sorted sizeGe e.2.top_files ∧ e.2.scan_id = scanId

theorem progressOnly_nil (scanId : Nat) : progressOnly scanId [] := by
  intro e he
  simp at he

/-- Any event present after the inner entry loop ran was either already
present beforehand or is a progress event carrying the given scan id and a
top-files list sorted descending by size. -/
theorem foldEntries_events_mem (cancel clock pub : Nat → Bool) (topN scanId : Nat)
    (l : RListing) (st : ScanSt) (e : String × ProgressPayload)
    (he : e ∈ (foldEntries cancel clock pub topN scanId l st).events) :
    e ∈ st.events ∨
      (e.1 = "scan_progress" ∧ List.Sorted sizeGe e.2.top_files ∧ e.2.scan_id = scanId) := by
  induction l generalizing st with
  | nil => exact Or.inl (by simpa [foldEntries] using he)
  | errEntry rest ih =>
    by_cases hc : cancel st.pollIdx = true
    · simp only [foldEntries, if_pos hc] at he
      exact Or.inl (by simpa using he)
    · simp only [foldEntries, if_neg hc] at he
      rcases ih _ he with h | h
      · exact Or.inl (by simpa using h)
      · exact Or.inr h
  | errFileType rest ih =>
    by_cases hc : cancel st.pollIdx = true
    · simp only [foldEntries, if_pos hc] at he
      exact Or.inl (by simpa using he)
    · simp only [foldEntries, if_neg hc] at he
      rcases ih _ he with h | h
      · exact Or.inl (by simpa using h)
      · exact Or.inr h
  | symlinkE rest ih =>
    by_cases hc : cancel st.pollIdx = true
    · simp only [foldEntries, if_pos hc] at he
      exact Or.inl (by simpa using he)
    · simp only [foldEntries, if_neg hc] at he
      rcases ih _ he with h | h
      · exact Or.inl (by simpa using h)
      · exact Or.inr h
  | otherE p rest ih =>
    by_cases hc : cancel st.pollIdx = true
    · simp only [foldEntries, if_pos hc] at he
      exact Or.inl (by simpa using he)
    · simp only [foldEntries, if_neg hc] at he
      rcases ih _ he with h | h
      · exact Or.inl (by simpa using h)
      · exact Or.inr h
  | dirOk p sub rest ihsub ih =>
    by_cases hc : cancel st.pollIdx = true
    · simp only [foldEntries, if_pos hc] at he
      exact Or.inl (by simpa using he)
    · simp only [foldEntries, if_neg hc] at he
      rcases ih _ he with h | h
      · exact Or.inl (by simpa using h)
      · exact Or.inr h
  | dirErr p rest ih =>
    by_cases hc : cancel st.pollIdx = true
    · simp only [foldEntries, if_pos hc] at he
      exact Or.inl (by simpa using he)
    · simp only [foldEntries, if_neg hc] at he
      rcases ih _ he with h | h
      · exact Or.inl (by simpa using h)
      · exact Or.inr h
  | fileE p meta rest ih =>
    by_cases hc : cancel st.pollIdx = true
    · simp only [foldEntries, if_pos hc] at he
      exact Or.inl (by simpa using he)
    · simp only [foldEntries, if_neg hc] at he
      cases meta with
      | none =>
        rcases ih _ he with h | h
        · exact Or.inl (by simpa using h)
        · exact Or.inr h
      | some size =>
        by_cases hk : clock st.clockIdx = true
        · simp only [if_pos hk] at he
          rcases ih _ he with h | h
          · have h' : e ∈ st.events ++ [(("scan_progress" : String),
                ({ scan_id := scanId, scanned_files := st.scanned_files + 1,
                   scanned_bytes := st.scanned_bytes + size, current_path := p,
                   top_files := renderTop (push_top st.heap (size, p) topN) } : ProgressPayload))] := by
              simpa [emit_progress] using h
            rcases List.mem_append.mp h' with h2 | h2
            · exact Or.inl h2
            · have h3 : e = (("scan_progress" : String),
                ({ scan_id := scanId, scanned_files := st.scanned_files + 1,
                   scanned_bytes := st.scanned_bytes + size, current_path := p,
                   top_files := renderTop (push_top st.heap (size, p) topN) } : ProgressPayload)) := by
                simpa using h2
              subst h3
              exact Or.inr ⟨rfl, renderTop_sorted _, rfl⟩
          · exact Or.inr h
        · simp only [if_neg hk] at he
          rcases ih _ he with h | h
          · exact Or.inl (by simpa using h)
          · exact Or.inr h

/-!  Unfolding equations for `scanLoop` (one per branch of the loop body). -/

theorem scanLoop_nil (cancel clock pub : Nat → Bool) (topN scanId : Nat) (st : ScanSt)
    (h : st.dirs = []) :
    scanLoop cancel clock pub topN scanId st = st := by
  conv_lhs => rw [scanLoop.eq_def]
  split
  · rfl
  · rename_i heq
    rw [h] at heq
    simp at heq

theorem scanLoop_cons_cancel (cancel clock pub : Nat → Bool) (topN scanId : Nat) (st : ScanSt)
    (f : String) (l? : Option RListing) (rest : List (String × Option RListing))
    (h : st.dirs = (f, l?) :: rest) (hc : cancel st.pollIdx = true) :
    scanLoop cancel clock pub topN scanId st =
      { st with dirs := rest, pollIdx := st.pollIdx + 1, cancelled := true } := by
  conv_lhs => rw [scanLoop.eq_def]
  split
  · rename_i heq
    rw [h] at heq
    simp at heq
  · rename_i f' l?' rest' heq
    rw [h] at heq
    simp only [List.cons.injEq, Prod.mk.injEq] at heq
    obtain ⟨⟨hf, hl⟩, hr⟩ := heq
    subst hf
    subst hl
    subst hr
    simp [hc]

theorem scanLoop_cons_none (cancel clock pub : Nat → Bool) (topN scanId : Nat) (st : ScanSt)
    (f : String) (rest : List (String × Option RListing))
    (h : st.dirs = (f, none) :: rest) (hc : cancel st.pollIdx = false) :
    scanLoop cancel clock pub topN scanId st =
      scanLoop cancel clock pub topN scanId { st with dirs := rest, pollIdx := st.pollIdx + 1 } := by
  conv_lhs => rw [scanLoop.eq_def]
  split
  · rename_i heq
    rw [h] at heq
    simp at heq
  · rename_i f' l?' rest' heq
    rw [h] at heq
    simp only [List.cons.injEq, Prod.mk.injEq] at heq
    obtain ⟨⟨hf, hl⟩, hr⟩ := heq
    subst hf
    subst hr
    cases hl
    simp [hc]

theorem scanLoop_cons_some (cancel clock pub : Nat → Bool) (topN scanId : Nat) (st : ScanSt)
    (f : String) (l : RListing) (rest : List (String × Option RListing))
    (h : st.dirs = (f, some l) :: rest) (hc : cancel st.pollIdx = false) :
    scanLoop cancel clock pub topN scanId st =
      scanLoop cancel clock pub topN scanId
        (foldEntries cancel clock pub topN scanId l
          { st with dirs := rest, pollIdx := st.pollIdx + 1 }) := by
  conv_lhs => rw [scanLoop.eq_def]
  split
  · rename_i heq
    rw [h] at heq
    simp at heq
  · rename_i f' l?' rest' heq
    rw [h] at heq
    simp only [List.cons.injEq, Prod.mk.injEq] at heq
    obtain ⟨⟨hf, hl⟩, hr⟩ := heq
    subst hf
    subst hr
    cases hl
    simp [hc]

/-- Any event present after the outer directory loop ran was either already
present beforehand or is a progress event carrying the given scan id and a
top-files list sorted descending by size. -/
theorem scanLoop_events_mem (cancel clock pub : Nat → Bool) (topN scanId : Nat)
    (st : ScanSt) (e : String × ProgressPayload) :
    e ∈ (scanLoop cancel clock pub topN scanId st).events →
    e ∈ st.events ∨
      (e.1 = "scan_progress" ∧ List.Sorted sizeGe e.2.top_files ∧ e.2.scan_id = scanId) := by
  induction st using scanLoop.induct cancel clock pub topN scanId with
  | case1 x hx =>
    intro he
    rw [scanLoop_nil cancel clock pub topN scanId x hx] at he
    exact Or.inl he
  | case2 x fst l? rest hx hc =>
    intro he
    rw [scanLoop_cons_cancel cancel clock pub topN scanId x fst l? rest hx hc] at he
    exact Or.inl (by simpa using he)
  | case3 x fst rest hc st1 hx hx2 ih =>
    intro he
    rw [scanLoop_cons_none cancel clock pub topN scanId x fst rest hx
      (Bool.not_eq_true _ ▸ eq_false_of_ne_true hc)] at he
    rcases ih he with h | h
    · exact Or.inl (by simpa using h)
    · exact Or.inr h
  | case4 x fst rest hc st1 l hx hx2 ih =>
    intro he
    rw [scanLoop_cons_some cancel clock pub topN scanId x fst l rest hx
      (Bool.not_eq_true _ ▸ eq_false_of_ne_true hc)] at he
    rcases ih he with h | h
    · rcases foldEntries_events_mem cancel clock pub topN scanId l _ e h with h2 | h2
      · exact Or.inl (by simpa using h2)
      · exact Or.inr h2
    · exact Or.inr h

/-- Shape of a full scan's event trace: some progress-only prefix followed by
exactly one final `scan_complete` event, whose top-files list is sorted
descending by size and which carries the scan's id. -/
theorem scan_events_shape (inp : ScanInput) (cancel clock pub : Nat → Bool)
    (topN scanId : Nat) :
    ∃ pre payload,
      (scan_directory inp cancel clock pub topN scanId).events
        = pre ++ [("scan_complete", payload)] ∧
      progressOnly scanId pre ∧
      List.Sorted sizeGe payload.top_files ∧ payload.scan_id = scanId := by
  cases hm : inp.rootMeta with
  | fileRoot size =>
    refine ⟨[(("scan_progress" : String),
      ({ scan_id := scanId, scanned_files := 1, scanned_bytes := size,
         current_path := inp.root,
         top_files := renderTop (push_top [] (size, inp.root) topN) } : ProgressPayload))],
      { scan_id := scanId, scanned_files := 1, scanned_bytes := size,
        current_path := inp.root,
        top_files := renderTop (push_top [] (size, inp.root) topN) }, ?_, ?_, ?_, ?_⟩
    · simp [scan_directory, hm, emit_progress, initSt]
    · intro e he
      simp at he
      subst he
      exact ⟨rfl, renderTop_sorted _, rfl⟩
    · exact renderTop_sorted _
    · rfl
  | metaErr =>
    refine ⟨(scanLoop cancel clock pub topN scanId
        { initSt with dirs := [(inp.root, inp.rootListing)] }).events,
      { scan_id := scanId,
        scanned_files := (scanLoop cancel clock pub topN scanId
          { initSt with dirs := [(inp.root, inp.rootListing)] }).scanned_files,
        scanned_bytes := (scanLoop cancel clock pub topN scanId
          { initSt with dirs := [(inp.root, inp.rootListing)] }).scanned_bytes,
        current_path := (scanLoop cancel clock pub topN scanId
          { initSt with dirs := [(inp.root, inp.rootListing)] }).current_path,
        top_files := renderTop (scanLoop cancel clock pub topN scanId
          { initSt with dirs := [(inp.root, inp.rootListing)] }).heap },
      by simp [scan_directory, hm, emit_progress], ?_, ?_, ?_⟩
    · intro e he
      rcases scanLoop_events_mem cancel clock pub topN scanId _ e he with h | h
      · simp [initSt] at h
      · exact h
    · exact renderTop_sorted _
    · rfl
  | dirRoot =>
    refine ⟨(scanLoop cancel clock pub topN scanId
        { initSt with dirs := [(inp.root, inp.rootListing)] }).events,
      { scan_id := scanId,
        scanned_files := (scanLoop cancel clock pub topN scanId
          { initSt with dirs := [(inp.root, inp.rootListing)] }).scanned_files,
        scanned_bytes := (scanLoop cancel clock pub topN scanId
          { initSt with dirs := [(inp.root, inp.rootListing)] }).scanned_bytes,
        current_path := (scanLoop cancel clock pub topN scanId
          { initSt with dirs := [(inp.root, inp.rootListing)] }).current_path,
        top_files := renderTop (scanLoop cancel clock pub topN scanId
          { initSt with dirs := [(inp.root, inp.rootListing)] }).heap },
      by simp [scan_directory, hm, emit_progress], ?_, ?_, ?_⟩
    · intro e he
      rcases scanLoop_events_mem cancel clock pub topN scanId _ e he with h | h
      · simp [initSt] at h
      · exact h
    · exact renderTop_sorted _
    · rfl

/-!  Claim theorems. -/

/-- C1: Top-N Tracker correctness — after any insertion sequence through
`push_top` with bound N, the heap holds exactly `min N n` of the `n` entries
inserted so far (so never more than N), namely a sub-multiset of the
insertions such that every entry left out has size at most that of every
retained entry; every snapshot emitted by a scan has `top_files` sorted
descending by size; and for N = 2 and sizes [10, 5, 30, 20] the rendered
result is [30, 20]. -/
theorem c1_top_tracker :
    (∀ (limit : Nat) (xs : List HeapEntry),
      (insertAll limit xs).length = min limit xs.length ∧
      ∃ dropped : List HeapEntry,
        List.Perm (insertAll limit xs ++ dropped) xs ∧
        ∀ d ∈ dropped, ∀ r ∈ insertAll limit xs, d.1 ≤ r.1) ∧
    (∀ (inp : ScanInput) (cancel clock pub : Nat → Bool) (topN scanId : Nat),
      ∀ e ∈ (scan_directory inp cancel clock pub topN scanId).events,
        List.Sorted sizeGe e.2.top_files) ∧
    renderTop (insertAll 2 [(10, "a"), (5, "b"), (30, "c"), (20, "d")])
      = [⟨"c", 30⟩, ⟨"d", 20⟩] := by
  refine ⟨?_, ?_, ?_⟩
  · intro limit xs
    obtain ⟨hlen, dropped, hperm, hdom⟩ := insertAll_inv limit xs
    exact ⟨hlen, dropped, hperm, hdom⟩
  · intro inp cancel clock pub topN scanId e he
    obtain ⟨pre, payload, hsh, hpre, hsorted, _⟩ :=
      scan_events_shape inp cancel clock pub topN scanId
    rw [hsh] at he
    rcases List.mem_append.mp he with h | h
    · exact (hpre e h).2.1
    · have : e = ("scan_complete", payload) := by simpa using h
      subst this
      exact hsorted
  · decide

/-- Witness for C1: a concrete scan of a single 3-byte file at path "f"
emits a progress snapshot whose rendered top-files list the theorem proves
sorted. -/
theorem c1_witness :
    (("scan_progress" : String),
      ({ scan_id := 1, scanned_files := 1, scanned_bytes := 3, current_path := "f",
         top_files := [⟨"f", 3⟩] } : ProgressPayload)) ∈
      (scan_directory ⟨"f", false, RootMeta.fileRoot 3, none⟩
        (fun _ => false) (fun _ => false) (fun _ => false) 50 1).events ∧
    List.Sorted sizeGe [(⟨"f", 3⟩ : FileEntry)] := by
  have hmem : (("scan_progress" : String),
      ({ scan_id := 1, scanned_files := 1, scanned_bytes := 3, current_path := "f",
         top_files := [⟨"f", 3⟩] } : ProgressPayload)) ∈
      (scan_directory ⟨"f", false, RootMeta.fileRoot 3, none⟩
        (fun _ => false) (fun _ => false) (fun _ => false) 50 1).events := by decide
  exact ⟨hmem, c1_top_tracker.2.1 _ _ _ _ _ _ _ hmem⟩

theorem push_top_empty (e : HeapEntry) (topN : Nat) (h : 0 < topN) :
    push_top [] e topN = [e] := by
  simp [push_top]
  omega

/-- C2: Singleton-file root — when the root's metadata reports a regular
file, `scan_directory` emits exactly two events, one `scan_progress` then
one `scan_complete` with identical payloads carrying `scanned_files = 1`,
`scanned_bytes` equal to the file's size and `top_files` containing exactly
that file, and returns `false` for every cancellation oracle, even one that
is already set. -/
theorem c2_singleton_file_root (root : String) (isLink : Bool)
    (listing : Option RListing) (size : Nat) (cancel clock pub : Nat → Bool)
    (topN scanId : Nat) (htop : 0 < topN) :
    (scan_directory ⟨root, isLink, RootMeta.fileRoot size, listing⟩
        cancel clock pub topN scanId).events
      = [("scan_progress",
          { scan_id := scanId, scanned_files := 1, scanned_bytes := size,
            current_path := root, top_files := [⟨root, size⟩] }),
         ("scan_complete",
          { scan_id := scanId, scanned_files := 1, scanned_bytes := size,
            current_path := root, top_files := [⟨root, size⟩] })] ∧
    (scan_directory ⟨root, isLink, RootMeta.fileRoot size, listing⟩
        cancel clock pub topN scanId).scanned_files = 1 ∧
    (scan_directory ⟨root, isLink, RootMeta.fileRoot size, listing⟩
        cancel clock pub topN scanId).scanned_bytes = size ∧
    (scan_directory ⟨root, isLink, RootMeta.fileRoot size, listing⟩
        cancel clock pub topN scanId).cancelled = false := by
  have hp : push_top [] (size, root) topN = [(size, root)] := push_top_empty _ _ htop
  have hr : renderTop [(size, root)] = [⟨root, size⟩] := rfl
  refine ⟨?_, by simp [scan_directory, emit_progress], by simp [scan_directory, emit_progress],
    by simp [scan_directory, emit_progress, initSt]⟩
  simp [scan_directory, emit_progress, initSt, hp, hr]

/-- Witness for C2: a 7-byte file at "/tmp/x" scanned with the token
already set still completes as a singleton and reports not cancelled. -/
theorem c2_witness :
    (scan_directory ⟨"/tmp/x", false, RootMeta.fileRoot 7, none⟩
        (fun _ => true) (fun _ => false) (fun _ => false) 50 4).events
      = [("scan_progress",
          { scan_id := 4, scanned_files := 1, scanned_bytes := 7,
            current_path := "/tmp/x", top_files := [⟨"/tmp/x", 7⟩] }),
         ("scan_complete",
          { scan_id := 4, scanned_files := 1, scanned_bytes := 7,
            current_path := "/tmp/x", top_files := [⟨"/tmp/x", 7⟩] })] ∧
    (scan_directory ⟨"/tmp/x", false, RootMeta.fileRoot 7, none⟩
        (fun _ => true) (fun _ => false) (fun _ => false) 50 4).scanned_files = 1 ∧
    (scan_directory ⟨"/tmp/x", false, RootMeta.fileRoot 7, none⟩
        (fun _ => true) (fun _ => false) (fun _ => false) 50 4).scanned_bytes = 7 ∧
    (scan_directory ⟨"/tmp/x", false, RootMeta.fileRoot 7, none⟩
        (fun _ => true) (fun _ => false) (fun _ => false) 50 4).cancelled = false :=
  c2_singleton_file_root "/tmp/x" false none 7 (fun _ => true) (fun _ => false)
    (fun _ => false) 50 4 (by decide)

/-!  Helper lemmas for cooperative cancellation (C3). -/

/-- Monotonicity of a cancellation oracle: the `AtomicBool` token is only
ever stored `true` (scanner callers never reset it), so once a load reads
`true` every later load does. -/
def MonoFlag (cancel : Nat → Bool) : Prop :=
  ∀ i j, i ≤ j → cancel i = true → cancel j = true

theorem foldEntries_pollIdx_le (cancel clock pub : Nat → Bool) (topN scanId : Nat)
    (l : RListing) (st : ScanSt) :
    st.pollIdx ≤ (foldEntries cancel clock pub topN scanId l st).pollIdx := by
  induction l generalizing st with
  | nil => simp [foldEntries]
  | errEntry rest ih =>
    by_cases hc : cancel st.pollIdx = true
    · simp [foldEntries, hc]
    · simp only [foldEntries, if_neg hc]
      exact le_trans (by simp) (ih _)
  | errFileType rest ih =>
    by_cases hc : cancel st.pollIdx = true
    · simp [foldEntries, hc]
    · simp only [foldEntries, if_neg hc]
      exact le_trans (by simp) (ih _)
  | symlinkE rest ih =>
    by_cases hc : cancel st.pollIdx = true
    · simp [foldEntries, hc]
    · simp only [foldEntries, if_neg hc]
      exact le_trans (by simp) (ih _)
  | otherE p rest ih =>
    by_cases hc : cancel st.pollIdx = true
    · simp [foldEntries, hc]
    · simp only [foldEntries, if_neg hc]
      exact le_trans (by simp) (ih _)
  | dirOk p sub rest ihsub ih =>
    by_cases hc : cancel st.pollIdx = true
    · simp [foldEntries, hc]
    · simp only [foldEntries, if_neg hc]
      exact le_trans (by simp) (ih _)
  | dirErr p rest ih =>
    by_cases hc : cancel st.pollIdx = true
    · simp [foldEntries, hc]
    · simp only [foldEntries, if_neg hc]
      exact le_trans (by simp) (ih _)
  | fileE p meta rest ih =>
    by_cases hc : cancel st.pollIdx = true
    · simp [foldEntries, hc]
    · simp only [foldEntries, if_neg hc]
      cases meta with
      | none => exact le_trans (by simp) (ih _)
      | some size =>
        refine le_trans ?_ (ih _)
        by_cases hk : clock st.clockIdx = true <;> simp [hk, emit_progress]

theorem foldEntries_cancelled_mono (cancel clock pub : Nat → Bool) (topN scanId : Nat)
    (hm : MonoFlag cancel) (l : RListing) (st : ScanSt)
    (hres : (foldEntries cancel clock pub topN scanId l st).cancelled = true) :
    st.cancelled = true ∨
      cancel ((foldEntries cancel clock pub topN scanId l st).pollIdx) = true := by
  induction l generalizing st with
  | nil => exact Or.inl (by simpa [foldEntries] using hres)
  | errEntry rest ih =>
    by_cases hc : cancel st.pollIdx = true
    · simp only [foldEntries, if_pos hc]
      exact Or.inr (by simpa using hm st.pollIdx (st.pollIdx + 1) (by omega) hc)
    · simp only [foldEntries, if_neg hc] at hres ⊢
      rcases ih _ hres with h | h
      · exact Or.inl (by simpa using h)
      · exact Or.inr h
  | errFileType rest ih =>
    by_cases hc : cancel st.pollIdx = true
    · simp only [foldEntries, if_pos hc]
      exact Or.inr (by simpa using hm st.pollIdx (st.pollIdx + 1) (by omega) hc)
    · simp only [foldEntries, if_neg hc] at hres ⊢
      rcases ih _ hres with h | h
      · exact Or.inl (by simpa using h)
      · exact Or.inr h
  | symlinkE rest ih =>
    by_cases hc : cancel st.pollIdx = true
    · simp only [foldEntries, if_pos hc]
      exact Or.inr (by simpa using hm st.pollIdx (st.pollIdx + 1) (by omega) hc)
    · simp only [foldEntries, if_neg hc] at hres ⊢
      rcases ih _ hres with h | h
      · exact Or.inl (by simpa using h)
      · exact Or.inr h
  | otherE p rest ih =>
    by_cases hc : cancel st.pollIdx = true
    · simp only [foldEntries, if_pos hc]
      exact Or.inr (by simpa using hm st.pollIdx (st.pollIdx + 1) (by omega) hc)
    · simp only [foldEntries, if_neg hc] at hres ⊢
      rcases ih _ hres with h | h
      · exact Or.inl (by simpa using h)
      · exact Or.inr h
  | dirOk p sub rest ihsub ih =>
    by_cases hc : cancel st.pollIdx = true
    · simp only [foldEntries, if_pos hc]
      exact Or.inr (by simpa using hm st.pollIdx (st.pollIdx + 1) (by omega) hc)
    · simp only [foldEntries, if_neg hc] at hres ⊢
      rcases ih _ hres with h | h
      · exact Or.inl (by simpa using h)
      · exact Or.inr h
  | dirErr p rest ih =>
    by_cases hc : cancel st.pollIdx = true
    · simp only [foldEntries, if_pos hc]
      exact Or.inr (by simpa using hm st.pollIdx (st.pollIdx + 1) (by omega) hc)
    · simp only [foldEntries, if_neg hc] at hres ⊢
      rcases ih _ hres with h | h
      · exact Or.inl (by simpa using h)
      · exact Or.inr h
  | fileE p meta rest ih =>
    by_cases hc : cancel st.pollIdx = true
    · simp only [foldEntries, if_pos hc]
      exact Or.inr (by simpa using hm st.pollIdx (st.pollIdx + 1) (by omega) hc)
    · simp only [foldEntries, if_neg hc] at hres ⊢
      cases meta with
      | none =>
        rcases ih _ hres with h | h
        · exact Or.inl (by simpa using h)
        · exact Or.inr h
      | some size =>
        rcases ih _ hres with h | h
        · refine Or.inl ?_
          by_cases hk : clock st.clockIdx = true <;>
            simpa [hk, emit_progress] using h
        · exact Or.inr h

/-- C3: Cooperative cancellation — the token is polled before each queued
directory and before each entry; a `true` poll stops the traversal
immediately, preserving (not discarding) every counter, heap entry and
already-emitted event and adding no further emission; with a monotone token
(set once, never reset) a cancellation observed inside a listing also stops
the outer loop without further observable work; every scan's trace is a
progress-only prefix followed by exactly one final `scan_complete` carrying
the scan's id; and a scan whose token is already set returns `true` with
nothing counted and only the completion event. -/
theorem c3_cooperative_cancellation :
    (∀ (cancel clock pub : Nat → Bool) (topN scanId : Nat) (l : RListing) (st : ScanSt),
      l ≠ RListing.nil → cancel st.pollIdx = true →
      foldEntries cancel clock pub topN scanId l st
        = { st with pollIdx := st.pollIdx + 1, cancelled := true }) ∧
    (∀ (cancel clock pub : Nat → Bool) (topN scanId : Nat) (st : ScanSt)
      (f : String) (l? : Option RListing) (rest : List (String × Option RListing)),
      st.dirs = (f, l?) :: rest → cancel st.pollIdx = true →
      scanLoop cancel clock pub topN scanId st
        = { st with dirs := rest, pollIdx := st.pollIdx + 1, cancelled := true }) ∧
    (∀ (cancel clock pub : Nat → Bool) (topN scanId : Nat), MonoFlag cancel →
      ∀ (l : RListing) (st : ScanSt), st.cancelled = false →
      (foldEntries cancel clock pub topN scanId l st).cancelled = true →
      (scanLoop cancel clock pub topN scanId
          (foldEntries cancel clock pub topN scanId l st)).scanned_files
        = (foldEntries cancel clock pub topN scanId l st).scanned_files ∧
      (scanLoop cancel clock pub topN scanId
          (foldEntries cancel clock pub topN scanId l st)).scanned_bytes
        = (foldEntries cancel clock pub topN scanId l st).scanned_bytes ∧
      (scanLoop cancel clock pub topN scanId
          (foldEntries cancel clock pub topN scanId l st)).heap
        = (foldEntries cancel clock pub topN scanId l st).heap ∧
      (scanLoop cancel clock pub topN scanId
          (foldEntries cancel clock pub topN scanId l st)).events
        = (foldEntries cancel clock pub topN scanId l st).events ∧
      (scanLoop cancel clock pub topN scanId
          (foldEntries cancel clock pub topN scanId l st)).cancelled = true) ∧
    (∀ (inp : ScanInput) (cancel clock pub : Nat → Bool) (topN scanId : Nat),
      ∃ pre payload,
        (scan_directory inp cancel clock pub topN scanId).events
          = pre ++ [("scan_complete", payload)] ∧
        (∀ e ∈ pre, e.1 = "scan_progress") ∧ payload.scan_id = scanId) ∧
    (∀ (root : String) (isLink : Bool) (listing : Option RListing)
      (clock pub : Nat → Bool) (topN scanId : Nat),
      (scan_directory ⟨root, isLink, RootMeta.dirRoot, listing⟩
          (fun _ => true) clock pub topN scanId).cancelled = true ∧
      (scan_directory ⟨root, isLink, RootMeta.dirRoot, listing⟩
          (fun _ => true) clock pub topN scanId).scanned_files = 0 ∧
      (scan_directory ⟨root, isLink, RootMeta.dirRoot, listing⟩
          (fun _ => true) clock pub topN scanId).events
        = [("scan_complete",
            { scan_id := scanId, scanned_files := 0, scanned_bytes := 0,
              current_path := "", top_files := [] })]) := by
  refine ⟨?_, ?_, ?_, ?_, ?_⟩
  · intro cancel clock pub topN scanId l st hl hc
    cases l with
    | nil => exact absurd rfl hl
    | errEntry rest => simp [foldEntries, hc]
    | errFileType rest => simp [foldEntries, hc]
    | symlinkE rest => simp [foldEntries, hc]
    | otherE p rest => simp [foldEntries, hc]
    | dirOk p sub rest => simp [foldEntries, hc]
    | dirErr p rest => simp [foldEntries, hc]
    | fileE p meta rest => simp [foldEntries, hc]
  · intro cancel clock pub topN scanId st f l? rest h hc
    exact scanLoop_cons_cancel cancel clock pub topN scanId st f l? rest h hc
  · intro cancel clock pub topN scanId hm l st hst hres
    have hcr : cancel ((foldEntries cancel clock pub topN scanId l st).pollIdx) = true := by
      rcases foldEntries_cancelled_mono cancel clock pub topN scanId hm l st hres with h | h
      · rw [hst] at h; cases h
      · exact h
    rcases hd : (foldEntries cancel clock pub topN scanId l st).dirs with _ | ⟨⟨f, l?⟩, rest⟩
    · rw [scanLoop_nil cancel clock pub topN scanId _ hd]
      exact ⟨rfl, rfl, rfl, rfl, hres⟩
    · rw [scanLoop_cons_cancel cancel clock pub topN scanId _ f l? rest hd hcr]
      exact ⟨rfl, rfl, rfl, rfl, rfl⟩
  · intro inp cancel clock pub topN scanId
    obtain ⟨pre, payload, hsh, hpre, _, hid⟩ :=
      scan_events_shape inp cancel clock pub topN scanId
    exact ⟨pre, payload, hsh, fun e he => (hpre e he).1, hid⟩
  · intro root isLink listing clock pub topN scanId
    have hl := scanLoop_cons_cancel (fun _ => true) clock pub topN scanId
      { dirs := [(root, listing)], heap := [], scanned_files := 0, scanned_bytes := 0,
        current_path := "", clockIdx := 0, pollIdx := 0, pubIdx := 0, events := [],
        cancelled := false } root listing [] rfl rfl
    simp at hl
    refine ⟨?_, ?_, ?_⟩ <;>
      simp [scan_directory, initSt, emit_progress, renderTop, hl]

/-- Witness for C3: an already-set token stops the entry loop before the
first (file) entry of a concrete listing, leaving the initial state intact
apart from the consumed poll and the cancelled flag. -/
theorem c3_witness :
    foldEntries (fun _ => true) (fun _ => false) (fun _ => false) 50 1
        (RListing.fileE "a" (some 5) RListing.nil) initSt
      = { initSt with pollIdx := 1, cancelled := true } :=
  c3_cooperative_cancellation.1 (fun _ => true) (fun _ => false) (fun _ => false) 50 1
    (RListing.fileE "a" (some 5) RListing.nil) initSt (by decide) rfl

/-- C6: `cancel_scan` semantics — with a healthy lock, a matching id sets
the token, clears the active id and returns `Ok(true)`; any other id
returns `Ok(false)` with the state untouched and no error; hence an
immediately repeated call always returns `Ok(false)` without further state
change. -/
theorem c6_cancel_scan_semantics :
    (∀ (st : ScanState) (scanId : Nat), st.active_id = some scanId →
      (cancel_scan scanId false st).ret = Except.ok true ∧
      (cancel_scan scanId false st).state
        = { st with cancel_flag := true, active_id := none }) ∧
    (∀ (st : ScanState) (scanId : Nat), st.active_id ≠ some scanId →
      (cancel_scan scanId false st).ret = Except.ok false ∧
      (cancel_scan scanId false st).state = st) ∧
    (∀ (st : ScanState) (scanId : Nat),
      (cancel_scan scanId false (cancel_scan scanId false st).state).ret
        = Except.ok false ∧
      (cancel_scan scanId false (cancel_scan scanId false st).state).state
        = (cancel_scan scanId false st).state) := by
  refine ⟨?_, ?_, ?_⟩
  · intro st scanId h
    simp [cancel_scan, h]
  · intro st scanId h
    simp [cancel_scan, h]
  · intro st scanId
    by_cases h : st.active_id = some scanId <;> simp [cancel_scan, h]

/-- Witness for C6: cancelling the active scan 1 returns `Ok(true)`, sets
the token and clears the active id. -/
theorem c6_witness :
    (cancel_scan 1 false
        { next_id := 2, active_id := some 1, cancel_flag := false,
          watch_generation := 1 }).ret = Except.ok true ∧
    (cancel_scan 1 false
        { next_id := 2, active_id := some 1, cancel_flag := false,
          watch_generation := 1 }).state
      = { next_id := 2, active_id := none, cancel_flag := true,
          watch_generation := 1 } :=
  c6_cancel_scan_semantics.1
    { next_id := 2, active_id := some 1, cancel_flag := false, watch_generation := 1 }
    1 rfl

/-- C7: `start_scan` on a nonexistent root — the call fails with the
path-not-exists error before acquiring the lock or spawning anything: no
scan identity is returned, no background task (hence no events) is spawned,
and the control state (next id, active id, token, watch generation) is
untouched, whatever the lock's health. -/
theorem c7_start_scan_nonexistent_root (st : ScanState) (poisoned : Bool) :
    (start_scan false poisoned st).ret = Except.error "Path does not exist" ∧
    (start_scan false poisoned st).state = st ∧
    (start_scan false poisoned st).spawned = false := by
  refine ⟨?_, ?_, ?_⟩ <;> simp [start_scan]

/-- Counterexample for C8: `should_watch` treats a poisoned coordinator lock
as "still fresh" (main.rs line 76, `Err(_) => true`).  With the lock
poisoned, a watcher is spawned although the captured generation 3 differs
from the live generation 5, and a running watcher whose generation check
hits a poisoned lock processes a notification despite the same mismatch —
refuting the claim that generation equality is required and that a mismatch
always terminates the loop. -/
theorem c8_counterexample :
    (afterScanTask false 1 true
        { next_id := 2, active_id := some 1, cancel_flag := false,
          watch_generation := 5 } 3).watcherSpawned = true ∧
    (3 : Nat) ≠ 5 ∧
    watcherLoop (fun _ => false) (fun _ => 5) (fun _ => true) 3 1
        [RawResult.ok EvKind.remove [⟨"/x", false, SymlinkMeta.err, none⟩]] 0
      = [{ scan_id := 1, path := "/x", kind := "remove", size := none }] := by
  refine ⟨rfl, by decide, rfl⟩

/-- C8 (amended): with a healthy (non-poisoned) coordinator lock, a watcher
is spawned exactly when the traversal returned not-cancelled and the
captured generation equals the live generation; a running watcher stops at
the first check whose live generation differs from its captured one,
emitting nothing further; and while every check matches it processes every
received notification, terminating only when the channel closes.  (When the
lock is poisoned, `should_watch` fails open and both gates pass regardless
of the generation.) -/
theorem c8_generation_gating_amended :
    (∀ (cancelled : Bool) (scanId : Nat) (st : ScanState) (capturedGen : Nat),
      (afterScanTask cancelled scanId false st capturedGen).watcherSpawned = true ↔
        (cancelled = false ∧ st.watch_generation = capturedGen)) ∧
    (∀ (pub : Nat → Bool) (live : Nat → Nat) (capturedGen scanId idx : Nat)
        (m : RawResult) (rest : List RawResult),
      live idx ≠ capturedGen →
      watcherLoop pub live (fun _ => false) capturedGen scanId (m :: rest) idx = []) ∧
    (∀ (pub : Nat → Bool) (live : Nat → Nat) (capturedGen scanId : Nat)
        (msgs : List RawResult) (idx : Nat),
      (∀ i, live i = capturedGen) →
      watcherLoop pub live (fun _ => false) capturedGen scanId msgs idx
        = msgs.foldr (fun m acc => processMsg scanId m ++ acc) []) := by
  refine ⟨?_, ?_, ?_⟩
  · intro cancelled scanId st capturedGen
    by_cases h : st.active_id = some scanId <;>
      simp [afterScanTask, should_watch, watch_generation, h, Bool.and_eq_true,
        Bool.not_eq_true']
  · intro pub live capturedGen scanId idx m rest h
    simp [watcherLoop, should_watch, h]
  · intro pub live capturedGen scanId msgs
    induction msgs with
    | nil => intro idx hlive; simp [watcherLoop]
    | cons m rest ih =>
      intro idx hlive
      simp [watcherLoop, should_watch, hlive idx, ih (idx + 1) ]
      exact ih _ hlive

/-- Witness for C8 (amended): with a healthy lock, a watcher captured at
generation 3 receiving a notification while the live generation is 5 stops
immediately and emits nothing. -/
theorem c8_witness :
    watcherLoop (fun _ => false) (fun _ => 5) (fun _ => false) 3 1
        [RawResult.ok EvKind.create [⟨"/y", true, SymlinkMeta.ok true false, some 2⟩]] 0
      = [] :=
  c8_generation_gating_amended.2.1 (fun _ => false) (fun _ => 5) 3 1 0
    (RawResult.ok EvKind.create [⟨"/y", true, SymlinkMeta.ok true false, some 2⟩]) []
    (by decide)

/-- C9: Watcher event classification — an `Err` channel item and any event
of an undistinguished kind are ignored with no output; for each associated
path of an accepted event: under a remove kind, or when the path no longer
exists, exactly one `remove` payload with no size; under create/modify when
the path currently resolves to a regular non-symlinked file, exactly one
payload of that kind with the file's current size; under create/modify when
the (existing) path is a directory, a symlink, or otherwise not a plain
file, no payload; and an accepted event's output is exactly the per-path
classification of its paths. -/
theorem c9_watcher_event_classification :
    (∀ (scanId : Nat) (paths : List PathInfo),
      processMsg scanId (RawResult.ok EvKind.otherKind paths) = []) ∧
    (∀ scanId : Nat, processMsg scanId RawResult.err = []) ∧
    (∀ (scanId : Nat) (p : PathInfo),
      processPath scanId "remove" p
        = some { scan_id := scanId, path := p.path, kind := "remove", size := none }) ∧
    (∀ (scanId : Nat) (kind : String) (p : PathInfo),
      (kind = "create" ∨ kind = "modify") → p.pathExists = false →
      processPath scanId kind p
        = some { scan_id := scanId, path := p.path, kind := "remove", size := none }) ∧
    (∀ (scanId : Nat) (kind : String) (p : PathInfo) (size : Nat),
      (kind = "create" ∨ kind = "modify") → p.pathExists = true →
      p.slMeta = SymlinkMeta.ok true false → p.metaLen = some size →
      processPath scanId kind p
        = some { scan_id := scanId, path := p.path, kind := kind, size := some size }) ∧
    (∀ (scanId : Nat) (kind : String) (p : PathInfo) (isFile isLink : Bool),
      (kind = "create" ∨ kind = "modify") → p.pathExists = true →
      p.slMeta = SymlinkMeta.ok isFile isLink → (isFile = false ∨ isLink = true) →
      processPath scanId kind p = none) ∧
    (∀ (scanId : Nat) (k : EvKind) (ks : String) (paths : List PathInfo),
      kindStr k = some ks →
      processMsg scanId (RawResult.ok k paths) = paths.filterMap (processPath scanId ks)) := by
  refine ⟨?_, ?_, ?_, ?_, ?_, ?_, ?_⟩
  · intro scanId paths
    simp [processMsg, kindStr]
  · intro scanId
    simp [processMsg]
  · intro scanId p
    simp [processPath]
  · intro scanId kind p hk hex
    rcases hk with rfl | rfl <;> simp [processPath, hex]
  · intro scanId kind p size hk hex hsl hlen
    rcases hk with rfl | rfl <;>
      simp [processPath, hex, hsl, hlen, path_is_file]
  · intro scanId kind p isFile isLink hk hex hsl hfl
    rcases hk with rfl | rfl <;> rcases hfl with rfl | rfl <;>
      simp [processPath, hex, hsl, path_is_file]
  · intro scanId k ks paths hks
    cases k <;> simp [kindStr] at hks <;> simp [processMsg, kindStr, hks]

/-- Witness for C9: a modify notification for an existing regular 9-byte
file at "/f" yields exactly one modify payload with size 9. -/
theorem c9_witness :
    processPath 2 "modify" ⟨"/f", true, SymlinkMeta.ok true false, some 9⟩
      = some { scan_id := 2, path := "/f", kind := "modify", size := some 9 } :=
  c9_watcher_event_classification.2.2.2.2.1 2 "modify"
    ⟨"/f", true, SymlinkMeta.ok true false, some 9⟩ 9 (Or.inr rfl) rfl rfl rfl

/-!  Publish-result invariance (C10). -/

theorem emit_progress_pub (pub₁ pub₂ : Nat → Bool) (scanId : Nat)
    (event_name : String) (st : ScanSt) :
    emit_progress pub₁ scanId event_name st = emit_progress pub₂ scanId event_name st := rfl

theorem foldEntries_pub (cancel clock pub₁ pub₂ : Nat → Bool) (topN scanId : Nat)
    (l : RListing) (st : ScanSt) :
    foldEntries cancel clock pub₁ topN scanId l st
      = foldEntries cancel clock pub₂ topN scanId l st := by
  induction l generalizing st with
  | nil => simp [foldEntries]
  | errEntry rest ih =>
    by_cases hc : cancel st.pollIdx = true
    · simp [foldEntries, hc]
    · simp only [foldEntries, if_neg hc]
      exact ih _
  | errFileType rest ih =>
    by_cases hc : cancel st.pollIdx = true
    · simp [foldEntries, hc]
    · simp only [foldEntries, if_neg hc]
      exact ih _
  | symlinkE rest ih =>
    by_cases hc : cancel st.pollIdx = true
    · simp [foldEntries, hc]
    · simp only [foldEntries, if_neg hc]
      exact ih _
  | otherE p rest ih =>
    by_cases hc : cancel st.pollIdx = true
    · simp [foldEntries, hc]
    · simp only [foldEntries, if_neg hc]
      exact ih _
  | dirOk p sub rest ihsub ih =>
    by_cases hc : cancel st.pollIdx = true
    · simp [foldEntries, hc]
    · simp only [foldEntries, if_neg hc]
      exact ih _
  | dirErr p rest ih =>
    by_cases hc : cancel st.pollIdx = true
    · simp [foldEntries, hc]
    · simp only [foldEntries, if_neg hc]
      exact ih _
  | fileE p meta rest ih =>
    by_cases hc : cancel st.pollIdx = true
    · simp [foldEntries, hc]
    · simp only [foldEntries, if_neg hc]
      cases meta with
      | none => exact ih _
      | some size =>
        by_cases hk : clock st.clockIdx = true
        · simp only [if_pos hk, emit_progress]
          exact ih _
        · simp only [if_neg hk]
          exact ih _

theorem scanLoop_pub (cancel clock pub₁ pub₂ : Nat → Bool) (topN scanId : Nat)
    (st : ScanSt) :
    scanLoop cancel clock pub₁ topN scanId st
      = scanLoop cancel clock pub₂ topN scanId st := by
  induction st using scanLoop.induct cancel clock pub₁ topN scanId with
  | case1 x hx =>
    rw [scanLoop_nil cancel clock pub₁ topN scanId x hx,
      scanLoop_nil cancel clock pub₂ topN scanId x hx]
  | case2 x fst l? rest hx hc =>
    rw [scanLoop_cons_cancel cancel clock pub₁ topN scanId x fst l? rest hx hc,
      scanLoop_cons_cancel cancel clock pub₂ topN scanId x fst l? rest hx hc]
  | case3 x fst rest hc st1 hx hx2 ih =>
    rw [scanLoop_cons_none cancel clock pub₁ topN scanId x fst rest hx
        (Bool.not_eq_true _ ▸ eq_false_of_ne_true hc),
      scanLoop_cons_none cancel clock pub₂ topN scanId x fst rest hx
        (Bool.not_eq_true _ ▸ eq_false_of_ne_true hc)]
    exact ih
  | case4 x fst rest hc st1 l hx hx2 ih =>
    rw [scanLoop_cons_some cancel clock pub₁ topN scanId x fst l rest hx
        (Bool.not_eq_true _ ▸ eq_false_of_ne_true hc),
      scanLoop_cons_some cancel clock pub₂ topN scanId x fst l rest hx
        (Bool.not_eq_true _ ▸ eq_false_of_ne_true hc)]
    rw [← foldEntries_pub cancel clock pub₁ pub₂ topN scanId l]
    exact ih

theorem watcherLoop_pub (pub₁ pub₂ : Nat → Bool) (live : Nat → Nat) (pois : Nat → Bool)
    (capturedGen scanId : Nat) (msgs : List RawResult) (idx : Nat) :
    watcherLoop pub₁ live pois capturedGen scanId msgs idx
      = watcherLoop pub₂ live pois capturedGen scanId msgs idx := by
  induction msgs generalizing idx with
  | nil => simp [watcherLoop]
  | cons m rest ih =>
    simp only [watcherLoop]
    by_cases h : should_watch (pois idx) (live idx) capturedGen = true <;> simp [h, ih]

/-- C10: Publish failures are absorbed — the `emit_to` results are discarded
(`let _ = ...`), so a scan's entire outcome (counters, tracker heap, emitted
sequence, return value) and a watcher's entire output are identical under
any two publish-result oracles. -/
theorem c10_publish_failures_absorbed :
    (∀ (inp : ScanInput) (cancel clock pub₁ pub₂ : Nat → Bool) (topN scanId : Nat),
      scan_directory inp cancel clock pub₁ topN scanId
        = scan_directory inp cancel clock pub₂ topN scanId) ∧
    (∀ (pub₁ pub₂ : Nat → Bool) (live : Nat → Nat) (pois : Nat → Bool)
        (capturedGen scanId : Nat) (msgs : List RawResult) (idx : Nat),
      watcherLoop pub₁ live pois capturedGen scanId msgs idx
        = watcherLoop pub₂ live pois capturedGen scanId msgs idx) := by
  refine ⟨?_, watcherLoop_pub⟩
  intro inp cancel clock pub₁ pub₂ topN scanId
  cases hm : inp.rootMeta with
  | fileRoot size => simp [scan_directory, hm, emit_progress]
  | metaErr =>
    simp only [scan_directory, hm]
    rw [scanLoop_pub cancel clock pub₁ pub₂ topN scanId]
    rw [emit_progress_pub pub₁ pub₂]
  | dirRoot =>
    simp only [scan_directory, hm]
    rw [scanLoop_pub cancel clock pub₁ pub₂ topN scanId]
    rw [emit_progress_pub pub₁ pub₂]

/-!  Erasure simulation: removing skipped entries (per-entry failures for C5,
symbolic links for C4) from the observed tree does not change what a
non-cancelled scan counts, tracks or emits (up to the `current_path` field,
which failing file entries do touch before their metadata read fails). -/

theorem neverCancel_eq (n : Nat) : (neverCancel n = true) = False := by
  simp [neverCancel]

/-- Which skippable entry kinds an erasure removes from the observed tree. -/
structure DropSpec where
  dErrEntry : Bool
  dErrFileType : Bool
  dSymlink : Bool
  dDirErr : Bool
  dFileMetaErr : Bool

/-- Remove the selected skippable entries from a listing, recursively. -/
def eraseL (ds : DropSpec) : RListing → RListing
  | .nil => .nil
  | .errEntry rest => if ds.dErrEntry then eraseL ds rest else .errEntry (eraseL ds rest)
  | .errFileType rest =>
    if ds.dErrFileType then eraseL ds rest else .errFileType (eraseL ds rest)
  | .symlinkE rest => if ds.dSymlink then eraseL ds rest else .symlinkE (eraseL ds rest)
  | .otherE p rest => .otherE p (eraseL ds rest)
  | .dirOk p sub rest => .dirOk p (eraseL ds sub) (eraseL ds rest)
  | .dirErr p rest => if ds.dDirErr then eraseL ds rest else .dirErr p (eraseL ds rest)
  | .fileE p none rest =>
    if ds.dFileMetaErr then eraseL ds rest else .fileE p none (eraseL ds rest)
  | .fileE p (some s) rest => .fileE p (some s) (eraseL ds rest)

/-- The observable part of an emitted event: its name, and the payload
without `current_path`. -/
def evObs (e : String × ProgressPayload) :
    String × Nat × Nat × Nat × List FileEntry :=
  (e.1, e.2.scan_id, e.2.scanned_files, e.2.scanned_bytes, e.2.top_files)

/-- Relation between the pending queue of the original scan and that of the
erased scan: listings are erased pointwise, and queue items stemming from
unreadable directories are absent from the erased queue when the erasure
drops `dirErr` entries. -/
inductive QR (ds : DropSpec) :
    List (String × Option RListing) → List (String × Option RListing) → Prop where
  | nil : QR ds [] []
  | consSome (p : String) (l : RListing) {q q' : List (String × Option RListing)} :
      QR ds q q' → QR ds ((p, some l) :: q) ((p, some (eraseL ds l)) :: q')
  | consNone (p : String) {q q' : List (String × Option RListing)} :
      QR ds q q' → QR ds ((p, none) :: q) ((p, none) :: q')
  | dropNone (p : String) {q q' : List (String × Option RListing)} :
      ds.dDirErr = true → QR ds q q' → QR ds ((p, none) :: q) q'

/-- Simulation between a state of the original scan (`s`) and one of the
erased scan (`t`): identical counters, heap, oracle positions and cancelled
flag, related queues, and identical events up to `current_path`. -/
structure SimRel (ds : DropSpec) (s t : ScanSt) : Prop where
  files : t.scanned_files = s.scanned_files
  bytes : t.scanned_bytes = s.scanned_bytes
  heapEq : t.heap = s.heap
  clockEq : t.clockIdx = s.clockIdx
  pubEq : t.pubIdx = s.pubIdx
  cancelEq : t.cancelled = s.cancelled
  dirsRel : QR ds s.dirs t.dirs
  eventsEq : t.events.map evObs = s.events.map evObs

theorem QR.append_some {ds : DropSpec} {q q' : List (String × Option RListing)}
    (h : QR ds q q') (p : String) (l : RListing) :
    QR ds (q ++ [(p, some l)]) (q' ++ [(p, some (eraseL ds l))]) := by
  induction h with
  | nil => exact QR.consSome p l QR.nil
  | consSome p' l' h ih => exact QR.consSome p' l' ih
  | consNone p' h ih => exact QR.consNone p' ih
  | dropNone p' hd h ih => exact QR.dropNone p' hd ih

theorem QR.append_none {ds : DropSpec} {q q' : List (String × Option RListing)}
    (h : QR ds q q') (p : String) :
    QR ds (q ++ [(p, none)]) (q' ++ [(p, none)]) := by
  induction h with
  | nil => exact QR.consNone p QR.nil
  | consSome p' l' h ih => exact QR.consSome p' l' ih
  | consNone p' h ih => exact QR.consNone p' ih
  | dropNone p' hd h ih => exact QR.dropNone p' hd ih

theorem QR.append_dropNone {ds : DropSpec} {q q' : List (String × Option RListing)}
    (h : QR ds q q') (p : String) (hd : ds.dDirErr = true) :
    QR ds (q ++ [(p, none)]) q' := by
  induction h with
  | nil => exact QR.dropNone p hd QR.nil
  | consSome p' l' h ih => exact QR.consSome p' l' ih
  | consNone p' h ih => exact QR.consNone p' ih
  | dropNone p' hd' h ih => exact QR.dropNone p' hd' ih

theorem QR.nil_left {ds : DropSpec} {q' : List (String × Option RListing)}
    (h : QR ds [] q') : q' = [] := by
  cases h
  rfl

theorem QR.some_left {ds : DropSpec} {f : String} {l : RListing}
    {q q'' : List (String × Option RListing)}
    (h : QR ds ((f, some l) :: q) q'') :
    ∃ q', q'' = (f, some (eraseL ds l)) :: q' ∧ QR ds q q' := by
  cases h with
  | consSome p l h => exact ⟨_, rfl, h⟩

theorem QR.none_left {ds : DropSpec} {f : String}
    {q q'' : List (String × Option RListing)}
    (h : QR ds ((f, none) :: q) q'') :
    (∃ q', q'' = (f, none) :: q' ∧ QR ds q q') ∨
      (ds.dDirErr = true ∧ QR ds q q'') := by
  cases h with
  | consNone p h => exact Or.inl ⟨_, rfl, h⟩
  | dropNone p hd h => exact Or.inr ⟨hd, h⟩

theorem foldEntries_sim (ds : DropSpec) (clock pub : Nat → Bool) (topN scanId : Nat)
    (l : RListing) :
    ∀ s t, SimRel ds s t →
    SimRel ds (foldEntries neverCancel clock pub topN scanId l s)
      (foldEntries neverCancel clock pub topN scanId (eraseL ds l) t) := by
  induction l with
  | nil =>
    intro s t h
    simpa [foldEntries, eraseL] using h
  | errEntry rest ih =>
    intro s t h
    by_cases hd : ds.dErrEntry = true
    · simp only [foldEntries, eraseL, if_pos hd, neverCancel_eq, if_false]
      exact ih _ _
        ⟨h.files, h.bytes, h.heapEq, h.clockEq, h.pubEq, h.cancelEq, h.dirsRel, h.eventsEq⟩
    · simp only [foldEntries, eraseL, if_neg hd, neverCancel_eq, if_false]
      exact ih _ _
        ⟨h.files, h.bytes, h.heapEq, h.clockEq, h.pubEq, h.cancelEq, h.dirsRel, h.eventsEq⟩
  | errFileType rest ih =>
    intro s t h
    by_cases hd : ds.dErrFileType = true
    · simp only [foldEntries, eraseL, if_pos hd, neverCancel_eq, if_false]
      exact ih _ _
        ⟨h.files, h.bytes, h.heapEq, h.clockEq, h.pubEq, h.cancelEq, h.dirsRel, h.eventsEq⟩
    · simp only [foldEntries, eraseL, if_neg hd, neverCancel_eq, if_false]
      exact ih _ _
        ⟨h.files, h.bytes, h.heapEq, h.clockEq, h.pubEq, h.cancelEq, h.dirsRel, h.eventsEq⟩
  | symlinkE rest ih =>
    intro s t h
    by_cases hd : ds.dSymlink = true
    · simp only [foldEntries, eraseL, if_pos hd, neverCancel_eq, if_false]
      exact ih _ _
        ⟨h.files, h.bytes, h.heapEq, h.clockEq, h.pubEq, h.cancelEq, h.dirsRel, h.eventsEq⟩
    · simp only [foldEntries, eraseL, if_neg hd, neverCancel_eq, if_false]
      exact ih _ _
        ⟨h.files, h.bytes, h.heapEq, h.clockEq, h.pubEq, h.cancelEq, h.dirsRel, h.eventsEq⟩
  | otherE p rest ih =>
    intro s t h
    simp only [foldEntries, eraseL, neverCancel_eq, if_false]
    exact ih _ _
      ⟨h.files, h.bytes, h.heapEq, h.clockEq, h.pubEq, h.cancelEq, h.dirsRel, h.eventsEq⟩
  | dirOk p sub rest ihsub ih =>
    intro s t h
    simp only [foldEntries, eraseL, neverCancel_eq, if_false]
    refine ih _ _
      ⟨h.files, h.bytes, h.heapEq, h.clockEq, h.pubEq, h.cancelEq, ?_, h.eventsEq⟩
    exact h.dirsRel.append_some p sub
  | dirErr p rest ih =>
    intro s t h
    by_cases hd : ds.dDirErr = true
    · simp only [foldEntries, eraseL, if_pos hd, neverCancel_eq, if_false]
      refine ih _ _
        ⟨h.files, h.bytes, h.heapEq, h.clockEq, h.pubEq, h.cancelEq, ?_, h.eventsEq⟩
      exact h.dirsRel.append_dropNone p hd
    · simp only [foldEntries, eraseL, if_neg hd, neverCancel_eq, if_false]
      refine ih _ _
        ⟨h.files, h.bytes, h.heapEq, h.clockEq, h.pubEq, h.cancelEq, ?_, h.eventsEq⟩
      exact h.dirsRel.append_none p
  | fileE p meta rest ih =>
    intro s t h
    cases meta with
    | none =>
      by_cases hd : ds.dFileMetaErr = true
      · simp only [foldEntries, eraseL, if_pos hd, neverCancel_eq, if_false]
        exact ih _ _
          ⟨h.files, h.bytes, h.heapEq, h.clockEq, h.pubEq, h.cancelEq, h.dirsRel, h.eventsEq⟩
      · simp only [foldEntries, eraseL, if_neg hd, neverCancel_eq, if_false]
        exact ih _ _
          ⟨h.files, h.bytes, h.heapEq, h.clockEq, h.pubEq, h.cancelEq, h.dirsRel, h.eventsEq⟩
    | some size =>
      simp only [foldEntries, eraseL, neverCancel_eq, if_false]
      by_cases hk : clock s.clockIdx = true
      · rw [if_pos hk, if_pos (show clock t.clockIdx = true by rw [h.clockEq]; exact hk)]
        simp only [emit_progress]
        refine ih _ _
          ⟨?_, ?_, ?_, ?_, ?_, ?_, ?_, ?_⟩ <;>
          simp [h.files, h.bytes, h.heapEq, h.clockEq, h.pubEq, h.cancelEq, h.eventsEq,
            evObs]
        exact h.dirsRel
      · rw [if_neg hk, if_neg (show ¬clock t.clockIdx = true by rw [h.clockEq]; exact hk)]
        refine ih _ _
          ⟨?_, ?_, ?_, ?_, ?_, ?_, ?_, ?_⟩ <;>
          simp [h.files, h.bytes, h.heapEq, h.clockEq, h.pubEq, h.cancelEq, h.eventsEq]
        exact h.dirsRel

theorem qsize_eq_zero {q : List (String × Option RListing)} (h : qsize q = 0) : q = [] := by
  cases q with
  | nil => rfl
  | cons x rest =>
    obtain ⟨p, l?⟩ := x
    simp [qsize] at h

theorem scanLoop_sim (ds : DropSpec) (clock pub : Nat → Bool) (topN scanId : Nat) :
    ∀ (n : Nat) (s t : ScanSt), qsize s.dirs ≤ n → SimRel ds s t →
    SimRel ds (scanLoop neverCancel clock pub topN scanId s)
      (scanLoop neverCancel clock pub topN scanId t) := by
  intro n
  induction n with
  | zero =>
    intro s t hq h
    have hs : s.dirs = [] := qsize_eq_zero (Nat.le_zero.mp hq)
    have ht : t.dirs = [] := (hs ▸ h.dirsRel).nil_left
    rw [scanLoop_nil neverCancel clock pub topN scanId s hs,
      scanLoop_nil neverCancel clock pub topN scanId t ht]
    exact h
  | succ n ihn =>
    intro s t hq h
    rcases hq1 : s.dirs with _ | ⟨⟨f, l?⟩, rest⟩
    · have ht : t.dirs = [] := (hq1 ▸ h.dirsRel).nil_left
      rw [scanLoop_nil neverCancel clock pub topN scanId s hq1,
        scanLoop_nil neverCancel clock pub topN scanId t ht]
      exact h
    · cases l? with
      | none =>
        have hrel : QR ds ((f, none) :: rest) t.dirs := hq1 ▸ h.dirsRel
        rcases hrel.none_left with ⟨q', hteq, hq'⟩ | ⟨hdd, hq'⟩
        · -- the unreadable-directory item is present in both queues
          rw [scanLoop_cons_none neverCancel clock pub topN scanId s f rest hq1 rfl,
            scanLoop_cons_none neverCancel clock pub topN scanId t f q' hteq rfl]
          refine ihn _ _ ?_ ⟨h.files, h.bytes, h.heapEq, h.clockEq, h.pubEq, h.cancelEq,
            by simpa using hq', h.eventsEq⟩
          have := hq
          rw [hq1] at this
          simp [qsize, qcost] at this ⊢
          omega
        · -- the erased scan never enqueued this unreadable directory
          rw [scanLoop_cons_none neverCancel clock pub topN scanId s f rest hq1 rfl]
          refine ihn _ _ ?_ ⟨h.files, h.bytes, h.heapEq, h.clockEq, h.pubEq, h.cancelEq,
            by simpa using hq', h.eventsEq⟩
          have := hq
          rw [hq1] at this
          simp [qsize, qcost] at this ⊢
          omega
      | some l =>
        have hrel : QR ds ((f, some l) :: rest) t.dirs := hq1 ▸ h.dirsRel
        obtain ⟨q', hteq, hq'⟩ := hrel.some_left
        rw [scanLoop_cons_some neverCancel clock pub topN scanId s f l rest hq1 rfl,
          scanLoop_cons_some neverCancel clock pub topN scanId t f (eraseL ds l) q' hteq rfl]
        have hsim := foldEntries_sim ds clock pub topN scanId l
          { s with dirs := rest, pollIdx := s.pollIdx + 1 }
          { t with dirs := q', pollIdx := t.pollIdx + 1 }
          ⟨h.files, h.bytes, h.heapEq, h.clockEq, h.pubEq, h.cancelEq,
            by simpa using hq', h.eventsEq⟩
        refine ihn _ _ ?_ hsim
        have hb := foldEntries_qsize neverCancel clock pub topN scanId l
          { s with dirs := rest, pollIdx := s.pollIdx + 1 }
        have := hq
        rw [hq1] at this
        simp [qsize, qcost] at this hb ⊢
        omega

/-- Erase the selected skippable entries from a scan's whole observed
tree. -/
def eraseInput (ds : DropSpec) (inp : ScanInput) : ScanInput :=
  { inp with rootListing := inp.rootListing.map (eraseL ds) }

/-- Scanning the erased tree (no cancellation) is observationally the same
scan: identical counters, heap, cancelled flag, and event trace up to
`current_path`. -/
theorem scan_directory_sim (ds : DropSpec) (clock pub : Nat → Bool)
    (topN scanId : Nat) (inp : ScanInput) :
    (scan_directory (eraseInput ds inp) neverCancel clock pub topN scanId).scanned_files
      = (scan_directory inp neverCancel clock pub topN scanId).scanned_files ∧
    (scan_directory (eraseInput ds inp) neverCancel clock pub topN scanId).scanned_bytes
      = (scan_directory inp neverCancel clock pub topN scanId).scanned_bytes ∧
    (scan_directory (eraseInput ds inp) neverCancel clock pub topN scanId).heap
      = (scan_directory inp neverCancel clock pub topN scanId).heap ∧
    (scan_directory (eraseInput ds inp) neverCancel clock pub topN scanId).cancelled
      = (scan_directory inp neverCancel clock pub topN scanId).cancelled ∧
    (scan_directory (eraseInput ds inp) neverCancel clock pub topN scanId).events.map evObs
      = (scan_directory inp neverCancel clock pub topN scanId).events.map evObs := by
  have hroot : (eraseInput ds inp).root = inp.root := rfl
  have hmeta : (eraseInput ds inp).rootMeta = inp.rootMeta := rfl
  cases hm : inp.rootMeta with
  | fileRoot size =>
    refine ⟨?_, ?_, ?_, ?_, ?_⟩ <;>
      simp [scan_directory, eraseInput, hm, emit_progress, initSt]
  | metaErr =>
    have hsim := scanLoop_sim ds clock pub topN scanId
      (qsize [(inp.root, inp.rootListing)])
      { initSt with dirs := [(inp.root, inp.rootListing)] }
      { initSt with dirs := [(inp.root, inp.rootListing.map (eraseL ds))] }
      (by simp) ?hrel
    case hrel =>
      refine ⟨rfl, rfl, rfl, rfl, rfl, rfl, ?_, rfl⟩
      cases inp.rootListing with
      | none => exact QR.consNone inp.root QR.nil
      | some l => exact QR.consSome inp.root l QR.nil
    refine ⟨?_, ?_, ?_, ?_, ?_⟩ <;>
      simp [scan_directory, eraseInput, hm, emit_progress, hsim.files, hsim.bytes,
        hsim.heapEq, hsim.cancelEq, hsim.eventsEq, evObs]
  | dirRoot =>
    have hsim := scanLoop_sim ds clock pub topN scanId
      (qsize [(inp.root, inp.rootListing)])
      { initSt with dirs := [(inp.root, inp.rootListing)] }
      { initSt with dirs := [(inp.root, inp.rootListing.map (eraseL ds))] }
      (by simp) ?hrel
    case hrel =>
      refine ⟨rfl, rfl, rfl, rfl, rfl, rfl, ?_, rfl⟩
      cases inp.rootListing with
      | none => exact QR.consNone inp.root QR.nil
      | some l => exact QR.consSome inp.root l QR.nil
    refine ⟨?_, ?_, ?_, ?_, ?_⟩ <;>
      simp [scan_directory, eraseInput, hm, emit_progress, hsim.files, hsim.bytes,
        hsim.heapEq, hsim.cancelEq, hsim.eventsEq, evObs]

/-- The erasure dropping every per-entry failure the traversal skips:
iteration errors, file-type errors, unreadable subdirectories and files
whose metadata read fails. -/
def dropErrs : DropSpec :=
  { dErrEntry := true, dErrFileType := true, dSymlink := false,
    dDirErr := true, dFileMetaErr := true }

/-- The erasure dropping exactly the symbolic-link entries. -/
def dropSyms : DropSpec :=
  { dErrEntry := false, dErrFileType := false, dSymlink := true,
    dDirErr := false, dFileMetaErr := false }

/-- Counterexample for C5: a root directory that exists but whose listing
cannot be read (`read_dir` fails) does not abort the scan — the traversal
completes normally, emitting its single `scan_complete` with zero counts and
returning not-cancelled.  No failure aborts `scan_directory`; a nonexistent
root is rejected earlier, by `start_scan`. -/
theorem c5_counterexample :
    (scan_directory ⟨"/locked", false, RootMeta.dirRoot, none⟩
        neverCancel (fun _ => false) (fun _ => false) 50 1).events
      = [("scan_complete",
          { scan_id := 1, scanned_files := 0, scanned_bytes := 0,
            current_path := "", top_files := [] })] ∧
    (scan_directory ⟨"/locked", false, RootMeta.dirRoot, none⟩
        neverCancel (fun _ => false) (fun _ => false) 50 1).cancelled = false := by
  have h1 := scanLoop_cons_none neverCancel (fun _ => false) (fun _ => false) 50 1
    { dirs := [("/locked", none)], heap := [], scanned_files := 0, scanned_bytes := 0,
      current_path := "", clockIdx := 0, pollIdx := 0, pubIdx := 0, events := [],
      cancelled := false } "/locked" [] rfl rfl
  have h2 := scanLoop_nil neverCancel (fun _ => false) (fun _ => false) 50 1
    { dirs := [], heap := [], scanned_files := 0, scanned_bytes := 0,
      current_path := "", clockIdx := 0, pollIdx := 1, pubIdx := 0, events := [],
      cancelled := false } rfl
  simp at h1 h2
  refine ⟨?_, ?_⟩ <;>
    simp [scan_directory, initSt, h1, h2, emit_progress, renderTop]

/-- C5 (amended): per-entry failures — iteration errors, file-type errors,
metadata errors, unreadable subdirectory listings — are silently skipped and
never abort the traversal: every scan of every tree ends with exactly one
final `scan_complete`, and erasing all failed entries from the observed tree
leaves a non-cancelled scan's counters, tracker heap, return value and event
trace (up to `current_path`) unchanged, i.e. the failures are merely
uncounted.  In fact no failure aborts `scan_directory` at all: even an
unreadable root yields an empty completed scan (the nonexistent-root case
being rejected beforehand by `start_scan`). -/
theorem c5_error_absorption_amended :
    (∀ (inp : ScanInput) (cancel clock pub : Nat → Bool) (topN scanId : Nat),
      ∃ pre payload,
        (scan_directory inp cancel clock pub topN scanId).events
          = pre ++ [("scan_complete", payload)] ∧
        ∀ e ∈ pre, e.1 = "scan_progress") ∧
    (∀ (clock pub : Nat → Bool) (topN scanId : Nat) (inp : ScanInput),
      (scan_directory (eraseInput dropErrs inp) neverCancel clock pub topN scanId).scanned_files
        = (scan_directory inp neverCancel clock pub topN scanId).scanned_files ∧
      (scan_directory (eraseInput dropErrs inp) neverCancel clock pub topN scanId).scanned_bytes
        = (scan_directory inp neverCancel clock pub topN scanId).scanned_bytes ∧
      (scan_directory (eraseInput dropErrs inp) neverCancel clock pub topN scanId).heap
        = (scan_directory inp neverCancel clock pub topN scanId).heap ∧
      (scan_directory (eraseInput dropErrs inp) neverCancel clock pub topN scanId).cancelled
        = (scan_directory inp neverCancel clock pub topN scanId).cancelled ∧
      (scan_directory (eraseInput dropErrs inp) neverCancel clock pub topN scanId).events.map evObs
        = (scan_directory inp neverCancel clock pub topN scanId).events.map evObs) := by
  constructor
  · intro inp cancel clock pub topN scanId
    obtain ⟨pre, payload, hsh, hpre, _, _⟩ :=
      scan_events_shape inp cancel clock pub topN scanId
    exact ⟨pre, payload, hsh, fun e he => (hpre e he).1⟩
  · intro clock pub topN scanId inp
    exact scan_directory_sim dropErrs clock pub topN scanId inp

/-- Witness for C5 (amended): the completion-shape conjunct applied to a
concrete two-entry listing containing a metadata failure. -/
theorem c5_witness :
    ∃ pre payload,
      (scan_directory ⟨"/d", false, RootMeta.dirRoot,
          some (RListing.fileE "/d/bad" none (RListing.fileE "/d/good" (some 4) RListing.nil))⟩
        neverCancel (fun _ => false) (fun _ => false) 50 9).events
        = pre ++ [("scan_complete", payload)] ∧
      ∀ e ∈ pre, e.1 = "scan_progress" :=
  c5_error_absorption_amended.1
    ⟨"/d", false, RootMeta.dirRoot,
      some (RListing.fileE "/d/bad" none (RListing.fileE "/d/good" (some 4) RListing.nil))⟩
    neverCancel (fun _ => false) (fun _ => false) 50 9

/-- Counterexample for C4: a root path that is itself a symbolic link to a
regular 7-byte file IS counted and reported — `fs::metadata` follows
symlinks, so the singleton-file branch fires: `scanned_files = 1`,
`scanned_bytes = 7`, and the link path appears in the emitted
`top_files` — refuting "never counted … including a root path that is
itself a symlink". -/
theorem c4_counterexample :
    ({ root := "/link", rootIsSymlink := true, rootMeta := RootMeta.fileRoot 7,
       rootListing := none } : ScanInput).rootIsSymlink = true ∧
    (scan_directory ⟨"/link", true, RootMeta.fileRoot 7, none⟩
        neverCancel (fun _ => false) (fun _ => false) 50 1).scanned_files = 1 ∧
    (scan_directory ⟨"/link", true, RootMeta.fileRoot 7, none⟩
        neverCancel (fun _ => false) (fun _ => false) 50 1).scanned_bytes = 7 ∧
    (scan_directory ⟨"/link", true, RootMeta.fileRoot 7, none⟩
        neverCancel (fun _ => false) (fun _ => false) 50 1).events
      = [("scan_progress",
          { scan_id := 1, scanned_files := 1, scanned_bytes := 7,
            current_path := "/link", top_files := [⟨"/link", 7⟩] }),
         ("scan_complete",
          { scan_id := 1, scanned_files := 1, scanned_bytes := 7,
            current_path := "/link", top_files := [⟨"/link", 7⟩] })] := by
  refine ⟨rfl, ?_, ?_, ?_⟩ <;>
    simp [scan_directory, emit_progress, initSt, push_top, renderTop]

/-- C4 (amended): symbolic-link directory *entries* are excluded — the loop
skips them before reading their path, so they are never counted in
`scanned_files`/`scanned_bytes`, never enqueued for traversal, and never
offered to the tracker, and erasing them from the observed tree leaves a
non-cancelled scan's counters, heap, return value and event trace (up to
`current_path`, which a skipped symlink never touches anyway) unchanged.  A
*root* path that is itself a symlink, however, is followed: `fs::metadata`
and `read_dir` resolve it, so the scan treats it as its target. -/
theorem c4_symlink_exclusion_amended :
    (∀ (cancel clock pub : Nat → Bool) (topN scanId : Nat) (rest : RListing) (st : ScanSt),
      cancel st.pollIdx = false →
      foldEntries cancel clock pub topN scanId (RListing.symlinkE rest) st
        = foldEntries cancel clock pub topN scanId rest
            { st with pollIdx := st.pollIdx + 1 }) ∧
    (∀ (clock pub : Nat → Bool) (topN scanId : Nat) (inp : ScanInput),
      (scan_directory (eraseInput dropSyms inp) neverCancel clock pub topN scanId).scanned_files
        = (scan_directory inp neverCancel clock pub topN scanId).scanned_files ∧
      (scan_directory (eraseInput dropSyms inp) neverCancel clock pub topN scanId).scanned_bytes
        = (scan_directory inp neverCancel clock pub topN scanId).scanned_bytes ∧
      (scan_directory (eraseInput dropSyms inp) neverCancel clock pub topN scanId).heap
        = (scan_directory inp neverCancel clock pub topN scanId).heap ∧
      (scan_directory (eraseInput dropSyms inp) neverCancel clock pub topN scanId).cancelled
        = (scan_directory inp neverCancel clock pub topN scanId).cancelled ∧
      (scan_directory (eraseInput dropSyms inp) neverCancel clock pub topN scanId).events.map evObs
        = (scan_directory inp neverCancel clock pub topN scanId).events.map evObs) := by
  constructor
  · intro cancel clock pub topN scanId rest st hc
    simp [foldEntries, hc]
  · intro clock pub topN scanId inp
    exact scan_directory_sim dropSyms clock pub topN scanId inp

/-- Witness for C4 (amended): skipping a concrete symlink entry consumes
only the poll. -/
theorem c4_witness :
    foldEntries neverCancel (fun _ => false) (fun _ => false) 50 1
        (RListing.symlinkE RListing.nil) initSt
      = foldEntries neverCancel (fun _ => false) (fun _ => false) 50 1 RListing.nil
          { initSt with pollIdx := 1 } :=
  c4_symlink_exclusion_amended.1 neverCancel (fun _ => false) (fun _ => false) 50 1
    RListing.nil initSt rfl
